import Mathlib

/-!
Verification development for the probabilistically balanced hash trie of
`src/trie.rs` (crate module `adapton::collections::trie`).

The trie code itself (`Trie`, `mfn`, `root_mfn`, `empty`, `extend`,
`split_atomic`, `find`, `is_empty`, the map view, the fold family) is
translated from `src/trie.rs`.  Three collaborators of that file are part of
the repository but are not under `src/`, so they are modelled from the spec,
as marked on each definition:
  * the bit-string module (`adapton::bitstring`): `BS`, `MAX_LEN`, `prepend`;
  * the engine (`adapton::engine`): `Name`, forking, articulations
    (`Art`/`put`/`cell`/`force`), memoization;
  * the set view (`SetIntro`/`SetElim` for `Trie<(X, ())>`): `empty`, `add`,
    `mem`.
Machine integers are modelled as `Nat`/`Int`:
  * `u64` hash values are `Nat` bit patterns reduced modulo `2 ^ 64`
    (`hash64`);
  * the `as i64` cast used for `find`'s index leaves the 64-bit pattern
    unchanged, so the index is carried as its `Nat` bit pattern and the
    arithmetic shift `>> 1` of `i64` becomes `asr64` (duplicate bit 63);
  * `i64` quantities that are genuinely signed (`Meta.min_depth`) are `Int`.
Panics (`panic!`, `unimplemented!`) are modelled by `Option`, `none` meaning
the operation aborts.  Memoization (`memo!`, `thunk!`, `put`, `cell`) is
semantically transparent: an articulation is modelled as a node holding its
forced value.
-/

set_option maxHeartbeats 1600000
set_option maxRecDepth 4000

namespace AdaptonTrie

/-- Modelled from the spec (§6): engine names are opaque identities built by
`of_str`, `of_usize`, `pair`, `unit`, and forking; `fork` deterministically
derives two children distinct from each other and from the parent. The engine
is part of the repository but not under `src/`. -/
inductive NameT : Type
  | unit : NameT
  | ofStr : String → NameT
  | ofUsize : Nat → NameT
  | pairN : NameT → NameT → NameT
  | forkL : NameT → NameT
  | forkR : NameT → NameT

deriving instance DecidableEq for NameT

/-- Modelled from the spec (§6): `name_fork` returns two fresh children of a
name, deterministically and injectively. -/
def fork (n : NameT) : NameT × NameT := (NameT.forkL n, NameT.forkR n)

/-- Modelled from the spec (§3): `MAX_LEN` is the fixed platform bound on
bit-string length (the bit width usable for placement).  The spec does not
give its numeric value (`bitstring.rs` is not under `src/`); we fix 30.
No claim depends on the particular value. -/
def MAX_LEN : Nat := 30

/-- Bit strings, from `adapton::bitstring` (not under `src/`).  Modelled from
the spec (§3): `{ length, value }`, a sequence of at most `MAX_LEN` bits.
The Rust fields are `i64`, but both are always non-negative, so `Nat`. -/
structure BS where
  length : Nat
  value : Nat

deriving instance DecidableEq for BS

/-- Modelled from the spec (§3): `prepend(bit, bs)` extends the path by one
bit, recording the new branch choice at position `length` (the descent
consumes low-order hash bits first, so a correctly placed element's path
value is the low `length` bits of its hash; this is what makes
`split_atomic`'s low-bits `suffix` test in `src/trie.rs` meaningful). -/
def BS.prepend (b : Nat) (bs : BS) : BS :=
  ⟨bs.length + 1, bs.value + b * 2 ^ bs.length⟩

/-- Metadata held by the root node (`Meta` in `src/trie.rs`).
`min_depth: i64` becomes `Int`. -/
structure Meta where
  min_depth : Int

deriving instance DecidableEq for Meta

/-- The trie node structure (`enum Trie<X>` in `src/trie.rs`).  `Art` is the
engine's articulation; in the model it holds its forced value directly
(`force` of a `put`/`cell`/`thunk!` articulation returns the value it was
built from), so forcing an `Art` is transparent. -/
inductive Trie (X : Type) : Type
  | Nil : BS → Trie X
  | Leaf : BS → X → Trie X
  | Bin : BS → Trie X → Trie X → Trie X
  | Root : Meta → Trie X → Trie X
  | Name : NameT → Trie X → Trie X
  | Art : Trie X → Trie X

deriving instance DecidableEq for Trie

/-- A `DefaultHasher` digest: `finish()` returns `u64`, so every hash used by
the code is a 64-bit pattern.  The hasher itself lives in `std`, so the
pre-hash `H` is a parameter of the whole development. -/
def hash64 {X : Type} (H : X → Nat) (x : X) : Nat := H x % 2 ^ 64

/-- `suffix` from `split_atomic` in `src/trie.rs`: `bs.value & k == bs.value`.
The Rust `k` is the hash cast `as i64`; the cast keeps the 64-bit pattern and
`&` is bitwise, so we carry the pattern as `Nat`. -/
def suffix (bs : BS) (k : Nat) : Bool := bs.value &&& k == bs.value

/-- Arithmetic shift right by one of an `i64` carried as its 64-bit `Nat`
pattern: shift and duplicate the sign bit (bit 63). -/
def asr64 (i : Nat) : Nat := i / 2 + i / 2 ^ 63 % 2 * 2 ^ 63

/-- Iterated `asr64`, the index as `find` descends `j` `Bin` levels. -/
def iterAsr : Nat → Nat → Nat
  | 0, i => i
  | j + 1, i => iterAsr j (asr64 i)

/-- `split_atomic` from `src/trie.rs`: no-op on `Nil`/`Bin`; a `Leaf` is split
into a `Bin`, a fresh hash of the stored element deciding (via the low-bits
`suffix` test against the one-bit-longer path) which child keeps it; any
other node shape is a panic (`none`). -/
def split_atomic {X : Type} (H : X → Nat) : Trie X → Option (Trie X)
  | .Nil bs => some (.Nil bs)
  | .Bin bs l r => some (.Bin bs l r)
  | .Leaf bs e =>
    let bs0 := BS.prepend 0 bs
    let bs1 := BS.prepend 1 bs
    if suffix bs1 (hash64 H e) then some (.Bin bs (.Nil bs0) (.Leaf bs1 e))
    else some (.Bin bs (.Leaf bs0 e) (.Nil bs1))
  | _ => none

/-- The `Nil` cases of `Trie::mfn` in `src/trie.rs`, with the recursion
re-expressed on the fuel `(min_depth - length bs).toNat` (each forced level
moves the path one bit closer to `min_depth`, so this is exactly the number
of remaining forced-`Bin` levels; `mfn_nil_force`/`mfn_nil_leaf` below prove
the unfolding steps in the source's shape).  While the path is shorter than
`min_depth` a branch is forced and the insertion descends along the next
hash bit; once at depth `min_depth` the `Nil` becomes a `Leaf`. -/
def nilForce {X : Type} : Nat → BS → X → Nat → Trie X
  | 0, bs, elt, _ => .Leaf bs elt
  | n + 1, bs, elt, hash =>
    let bs0 := BS.prepend 0 bs
    let bs1 := BS.prepend 1 bs
    if hash % 2 = 0 then .Bin bs (nilForce n bs0 elt (hash / 2)) (.Nil bs1)
    else .Bin bs (.Nil bs0) (nilForce n bs1 elt (hash / 2))

/-- The `Leaf` case of `Trie::mfn` in `src/trie.rs`, with the
split-then-retry recursion re-expressed on the fuel
`MAX_LEN - length bs` (fuel `0` is exactly `depth >= MAX_LEN`, where the code
keeps the existing leaf unchanged — the trailing `panic!` branch of that
`if` is unreachable).  With fuel left, an equal element is a no-op;
otherwise the leaf is split by `split_atomic`'s rule and the retry at the
same path immediately takes the `Bin` step of `mfn`, descending one level by
the next hash bit of the inserted element (`mfn_leaf_split` below proves the
unfolding in the source's split-then-retry shape). A `Nil` child receiving
the new element behaves as the `Nil` cases (`nilForce`). -/
def leafIns {X : Type} [DecidableEq X] (H : X → Nat) (meta : Meta) :
    Nat → BS → X → X → Nat → Trie X
  | 0, bs, e, _, _ => .Leaf bs e
  | n + 1, bs, e, elt, hash =>
    if e = elt then .Leaf bs e
    else
      let bs0 := BS.prepend 0 bs
      let bs1 := BS.prepend 1 bs
      if suffix bs1 (hash64 H e) then
        -- the existing element moves to the 1-child
        if hash % 2 = 0 then
          .Bin bs (nilForce ((meta.min_depth - (bs0.length : Int)).toNat) bs0 elt (hash / 2))
            (.Leaf bs1 e)
        else .Bin bs (.Nil bs0) (leafIns H meta n bs1 e elt (hash / 2))
      else
        if hash % 2 = 0 then .Bin bs (leafIns H meta n bs0 e elt (hash / 2)) (.Nil bs1)
        else
          .Bin bs (.Leaf bs0 e)
            (nilForce ((meta.min_depth - (bs1.length : Int)).toNat) bs1 elt (hash / 2))

/-- `Trie::mfn` from `src/trie.rs`: recursive placement of `elt` along the
low-order bits of its hash.  The `Nil` and `Leaf` cases are delegated to
`nilForce`/`leafIns` (their recursion counted by explicit fuel, see those
definitions and the unfolding lemmas `mfn_nil_force`, `mfn_nil_leaf`,
`mfn_leaf_keep`, `mfn_leaf_split`); the `Bin` case descends by the next hash
bit using the node's stored path; `Name(_, Art(a))` is forced transparently;
any other shape panics (`none`).  The name argument is carried but unused,
as in the source. -/
def mfn {X : Type} [DecidableEq X] (H : X → Nat) (nm : NameT) (meta : Meta) :
    Trie X → BS → X → Nat → Option (Trie X)
  | .Nil _, bs, elt, hash =>
    some (nilForce ((meta.min_depth - (bs.length : Int)).toNat) bs elt hash)
  | .Leaf _ e, bs, elt, hash => some (leafIns H meta (MAX_LEN - bs.length) bs e elt hash)
  | .Bin bs' l r, _, elt, hash =>
    if hash % 2 = 0 then
      (mfn H nm meta l (BS.prepend 0 bs') elt (hash / 2)).map fun l' => .Bin bs' l' r
    else (mfn H nm meta r (BS.prepend 1 bs') elt (hash / 2)).map fun r' => .Bin bs' l r'
  | .Name _ (.Art a), bs, elt, hash => mfn H nm meta a bs elt hash
  | _, _, _, _ => none

/-- `Trie::root_mfn` from `src/trie.rs`: the entry point of `extend`.  The
input must be `Name(_, Art(..))`; the articulation is forced; a `Root` starts
the placement (`mfn`) of the freshly hashed element at the empty path and
rewraps the result as `Root(meta, Name(nm1, Art(..)))`; a further
`Name(_, Art(..))` layer is unwrapped recursively; anything else panics
(`none`). -/
def root_mfn {X : Type} [DecidableEq X] (H : X → Nat) (_nm0 : NameT) (nm : NameT) :
    Trie X → X → Option (Trie X)
  | .Name _ (.Art a), elt =>
    match a with
    | .Root meta t =>
      (mfn H (fork nm).2 meta t ⟨0, 0⟩ elt (hash64 H elt)).map fun r =>
        .Root meta (.Name (fork nm).1 (.Art r))
    | .Name nmi (.Art ai) => root_mfn H nm nm (.Name nmi (.Art ai)) elt
    | _ => none
  | _, _ => none

/-- `TrieIntro::extend` from `src/trie.rs`: fork the name, run `root_mfn`,
put the result in an articulation and wrap it as `Name(nm, Art(..))`. -/
def extendT {X : Type} [DecidableEq X] (H : X → Nat) (nm : NameT) (t : Trie X) (elt : X) :
    Option (Trie X) :=
  (root_mfn H (fork nm).1 (fork nm).2 t elt).map fun a => .Name (fork nm).1 (.Art a)

/-- `TrieIntro::empty` from `src/trie.rs`: clamp `min_depth` by
`min(min_depth, MAX_LEN)` (the `println!` diagnostic has no model), fork two
names from `name_of_str("trie_empty")`, and build
`Name(nm1, Art(Root(meta, Name(nm2, Art(Nil(bs0))))))` (the two `thunk!`
articulations force to `root(..)` and `nil(bs0)` respectively). -/
def emptyT (X : Type) (meta : Meta) : Trie X :=
  let m : Meta := ⟨min meta.min_depth (MAX_LEN : Int)⟩
  let nm := NameT.ofStr "trie_empty"
  .Name (fork nm).1
    (.Art (.Root m (.Name (fork nm).2 (.Art (.Nil ⟨0, 0⟩)))))

/-- `TrieIntro::singleton` from `src/trie.rs`: `extend(nm, empty(meta), elt)`. -/
def singletonT {X : Type} [DecidableEq X] (H : X → Nat) (meta : Meta) (nm : NameT) (elt : X) :
    Option (Trie X) :=
  extendT H nm (emptyT X meta) elt

/-- `TrieElim::find` from `src/trie.rs`: descend `Bin` nodes by the parity of
the `i64` index (even left, odd right, arithmetic shift each step), pass
through `Root`/`Name`/`Art` transparently, and at a `Leaf` return the stored
element iff it equals the one sought.  The index is carried as its 64-bit
`Nat` pattern (see `asr64`). -/
def findT {X : Type} [DecidableEq X] : Trie X → X → Nat → Option X
  | .Nil _, _, _ => none
  | .Leaf _ x, elt, _ => if elt = x then some x else none
  | .Bin _ l r, elt, i => if i % 2 = 0 then findT l elt (asr64 i) else findT r elt (asr64 i)
  | .Root _ t, elt, i => findT t elt i
  | .Name _ t, elt, i => findT t elt i
  | .Art t, elt, i => findT t elt i

/-- `TrieElim::is_empty` from `src/trie.rs`: true iff every forced reachable
node is `Nil`. -/
def isEmptyT {X : Type} : Trie X → Bool
  | .Nil _ => true
  | .Leaf _ _ => false
  | .Bin _ _ _ => false
  | .Root _ t => isEmptyT t
  | .Name _ t => isEmptyT t
  | .Art t => isEmptyT t

/-- The elements stored in a trie, in structural left-to-right order
(`Name`/`Art`/`Root` are transparent). -/
def elems {X : Type} : Trie X → List X
  | .Nil _ => []
  | .Leaf _ x => [x]
  | .Bin _ l r => elems l ++ elems r
  | .Root _ t => elems t
  | .Name _ t => elems t
  | .Art t => elems t

/-- `MapIntro::empty` for `Trie<(Dom, Cod)>` from `src/trie.rs`: an empty
trie with `min_depth = 1` (the `ns(..)` name scoping only affects engine
name spaces, not the produced value). -/
def mapEmpty (Dom Cod : Type) : Trie (Dom × Cod) := emptyT (Dom × Cod) ⟨1⟩

/-- `MapIntro::update` from `src/trie.rs`: `extend(name_unit(), map, (d, c))`.
Note the placement hashes the pair `(d, c)`. -/
def updateM {Dom Cod : Type} [DecidableEq Dom] [DecidableEq Cod]
    (H : Dom × Cod → Nat) (m : Trie (Dom × Cod)) (d : Dom) (c : Cod) :
    Option (Trie (Dom × Cod)) :=
  extendT H NameT.unit m (d, c)

/-- The inner `find_hash` of `MapElim::find` from `src/trie.rs`: the
bit-guided descent of `find`, but comparing only the domain component at a
`Leaf` and returning the codomain component. -/
def findHash {Dom Cod : Type} [DecidableEq Dom] :
    Trie (Dom × Cod) → Dom → Nat → Option Cod
  | .Nil _, _, _ => none
  | .Leaf _ p, d, _ => if d = p.1 then some p.2 else none
  | .Bin _ l r, d, i => if i % 2 = 0 then findHash l d (asr64 i) else findHash r d (asr64 i)
  | .Root _ t, d, i => findHash t d i
  | .Name _ t, d, i => findHash t d i
  | .Art t, d, i => findHash t d i

/-- `MapElim::find` from `src/trie.rs`: hash only the key `d` (`finish() as
i64` keeps the 64-bit pattern) and run `find_hash`. -/
def mapFind {Dom Cod : Type} [DecidableEq Dom]
    (HD : Dom → Nat) (m : Trie (Dom × Cod)) (d : Dom) : Option Cod :=
  findHash m d (hash64 HD d)

/-- Modelled from the spec (§4.6): `SetIntro::empty` for `Trie<(X, ())>` is
not under `src/`; like the map view it builds an empty trie with
`min_depth = 1` (§8's scenario: "starting from `empty()` with
`min_depth = 1`"). -/
def setEmpty (α : Type) : Trie (α × Unit) := emptyT (α × Unit) ⟨1⟩

/-- Modelled from the spec (§4.6): `SetIntro::add` is not under `src/`;
`add(set, x)` is `extend` with unit payload and the unit name. -/
def setAdd {α : Type} [DecidableEq α] (H : α × Unit → Nat) (s : Trie (α × Unit)) (x : α) :
    Option (Trie (α × Unit)) :=
  extendT H NameT.unit s (x, ())

/-- Modelled from the spec (§4.4): `mem(set, elt)` is not under `src/`; it
computes a fresh hash of the stored element and calls `find` with that hash
as the index, returning whether a match was found. -/
def memSet {α : Type} [DecidableEq α] (H : α × Unit → Nat) (s : Trie (α × Unit)) (x : α) :
    Bool :=
  (findT s (x, ()) (hash64 H (x, ()))).isSome

/-- A sequence of insertions through the set view, starting from `empty()`
(`none` if any `extend` panics). -/
def buildSet {α : Type} [DecidableEq α] (H : α × Unit → Nat) (xs : List α) :
    Option (Trie (α × Unit)) :=
  xs.foldlM (fun s x => setAdd H s x) (setEmpty α)

/-- `trie_fold_up` from `src/trie.rs`: bottom-up shape-preserving fold; one
function per structural case, `Art` forced transparently by `elim_arg`, the
`Name` case invoking `memo!` (transparent in the model) and then the name
hook. -/
def trie_fold_up {X Res : Type} (nilF : BS → Res) (leafF : BS → X → Res)
    (binF : BS → Res → Res → Res) (rootF : Meta → Res → Res) (nameF : NameT → Res → Res) :
    Trie X → Res
  | .Nil bs => nilF bs
  | .Leaf bs x => leafF bs x
  | .Bin bs l r =>
    binF bs (trie_fold_up nilF leafF binF rootF nameF l)
      (trie_fold_up nilF leafF binF rootF nameF r)
  | .Root m t => rootF m (trie_fold_up nilF leafF binF rootF nameF t)
  | .Name n t => nameF n (trie_fold_up nilF leafF binF rootF nameF t)
  | .Art t => trie_fold_up nilF leafF binF rootF nameF t

/-- `eager_trie_of_trie` from `src/trie.rs`: `trie_fold_up` instantiated with
the bare constructors `nil`/`leaf`/`bin`/`root`/`name`. -/
def eager_trie_of_trie {X : Type} : Trie X → Trie X :=
  trie_fold_up Trie.Nil Trie.Leaf Trie.Bin Trie.Root Trie.Name

/-- Remove every `Art` layer from a trie, keeping all other structure. -/
def stripArt {X : Type} : Trie X → Trie X
  | .Nil bs => .Nil bs
  | .Leaf bs x => .Leaf bs x
  | .Bin bs l r => .Bin bs (stripArt l) (stripArt r)
  | .Root m t => .Root m (stripArt t)
  | .Name n t => .Name n (stripArt t)
  | .Art t => stripArt t

/-- Whether a trie contains an `Art` node. -/
def hasArt {X : Type} : Trie X → Bool
  | .Nil _ => false
  | .Leaf _ _ => false
  | .Bin _ l r => hasArt l || hasArt r
  | .Root _ t => hasArt t
  | .Name _ t => hasArt t
  | .Art _ => true

/-- Whether a trie contains a `Name` node. -/
def hasName {X : Type} : Trie X → Bool
  | .Nil _ => false
  | .Leaf _ _ => false
  | .Bin _ l r => hasName l || hasName r
  | .Root _ t => hasName t
  | .Name _ _ => true
  | .Art t => hasName t

/-- Every leaf's recorded path length is at least `m`. -/
def leavesGE {X : Type} (m : Int) : Trie X → Bool
  | .Nil _ => true
  | .Leaf bs _ => decide (m ≤ (bs.length : Int))
  | .Bin _ l r => leavesGE m l && leavesGE m r
  | .Root _ t => leavesGE m t
  | .Name _ t => leavesGE m t
  | .Art t => leavesGE m t

/-- The `Meta` of the first `Root` reached through `Name`/`Art` layers (what
"forcing to the root" observes). -/
def rootMeta {X : Type} : Trie X → Option Meta
  | .Root m _ => some m
  | .Name _ t => rootMeta t
  | .Art t => rootMeta t
  | _ => none


/-! ### Unfolding `mfn` back into the source's recursion shape

`nilForce` and `leafIns` carry the recursion of the `Nil` and `Leaf` cases of
`Trie::mfn` on explicit fuel; the following lemmas recover the exact
step-by-step shape of the source. -/

/-- At a `Nil` whose path is shorter than `min_depth`, `mfn` forces a branch
and recurses into the child selected by the next hash bit, as in the source's
first `Nil` arm. -/
theorem mfn_nil_force {X : Type} [DecidableEq X] (H : X → Nat) (nm : NameT) (meta : Meta)
    (nb bs : BS) (elt : X) (hash : Nat) (h : (bs.length : Int) < meta.min_depth) :
    mfn H nm meta (.Nil nb) bs elt hash =
      (if hash % 2 = 0 then
        (mfn H nm meta (.Nil (BS.prepend 0 bs)) (BS.prepend 0 bs) elt (hash / 2)).map
          (fun l => .Bin bs l (.Nil (BS.prepend 1 bs)))
      else
        (mfn H nm meta (.Nil (BS.prepend 1 bs)) (BS.prepend 1 bs) elt (hash / 2)).map
          (fun r => .Bin bs (.Nil (BS.prepend 0 bs)) r)) := by
  obtain ⟨m, hm⟩ : ∃ m, (meta.min_depth - (bs.length : Int)).toNat = m + 1 :=
    ⟨(meta.min_depth - (bs.length : Int)).toNat - 1, by omega⟩
  have h0 : (meta.min_depth - ((BS.prepend 0 bs).length : Int)).toNat = m := by
    simp only [BS.prepend]; omega
  have h1 : (meta.min_depth - ((BS.prepend 1 bs).length : Int)).toNat = m := by
    simp only [BS.prepend]; omega
  simp only [mfn, hm, h0, h1, nilForce, Option.map_some']
  split <;> rfl

/-- At a `Nil` whose path has reached `min_depth`, `mfn` places the element
as a leaf, as in the source's second `Nil` arm. -/
theorem mfn_nil_leaf {X : Type} [DecidableEq X] (H : X → Nat) (nm : NameT) (meta : Meta)
    (nb bs : BS) (elt : X) (hash : Nat) (h : ¬ (bs.length : Int) < meta.min_depth) :
    mfn H nm meta (.Nil nb) bs elt hash = some (.Leaf bs elt) := by
  have hm : (meta.min_depth - (bs.length : Int)).toNat = 0 := by omega
  simp only [mfn, hm, nilForce]

/-- At a `Leaf` holding an equal element, or whose path has exhausted
`MAX_LEN`, `mfn` returns the existing leaf unchanged, as in the source's
first `Leaf` branch (`depth >= BS::MAX_LEN || e == elt`). -/
theorem mfn_leaf_keep {X : Type} [DecidableEq X] (H : X → Nat) (nm : NameT) (meta : Meta)
    (nb bs : BS) (e elt : X) (hash : Nat) (h : MAX_LEN ≤ bs.length ∨ e = elt) :
    mfn H nm meta (.Leaf nb e) bs elt hash = some (.Leaf bs e) := by
  rcases h with h | h
  · have hm : MAX_LEN - bs.length = 0 := by omega
    simp only [mfn, hm, leafIns]
  · obtain ⟨m, hm⟩ | hm : (∃ m, MAX_LEN - bs.length = m + 1) ∨ MAX_LEN - bs.length = 0 := by
      rcases Nat.eq_zero_or_pos (MAX_LEN - bs.length) with h0 | h0
      · exact Or.inr h0
      · exact Or.inl ⟨MAX_LEN - bs.length - 1, by omega⟩
    · simp only [mfn, hm, leafIns, h, if_true]
    · simp only [mfn, hm, leafIns]

/-- At a `Leaf` holding a different element, with room left before
`MAX_LEN`, `mfn` splits the leaf with `split_atomic` and retries the
insertion on the resulting `Bin` at the same path and hash position, as in
the source's second `Leaf` branch. -/
theorem mfn_leaf_split {X : Type} [DecidableEq X] (H : X → Nat) (nm : NameT) (meta : Meta)
    (nb bs : BS) (e elt : X) (hash : Nat) (hlt : bs.length < MAX_LEN) (hne : e ≠ elt) :
    mfn H nm meta (.Leaf nb e) bs elt hash =
      (split_atomic H (.Leaf bs e)).bind fun s => mfn H nm meta s bs elt hash := by
  obtain ⟨m, hm⟩ : ∃ m, MAX_LEN - bs.length = m + 1 := ⟨MAX_LEN - bs.length - 1, by omega⟩
  have h0 : MAX_LEN - (BS.prepend 0 bs).length = m := by simp only [BS.prepend]; omega
  have h1 : MAX_LEN - (BS.prepend 1 bs).length = m := by simp only [BS.prepend]; omega
  rcases Bool.eq_false_or_eq_true (suffix (BS.prepend 1 bs) (hash64 H e)) with hs | hs <;>
    simp [mfn, hm, leafIns, hne, split_atomic, hs, h0, h1] <;> split <;> rfl

/-! ### Arithmetic on hash bits -/

theorem hash64_lt {X : Type} (H : X → Nat) (x : X) : hash64 H x < 2 ^ 64 :=
  Nat.mod_lt _ (by norm_num)

/-- Next-bit decomposition of a residue: the low `d + 1` bits are the low `d`
bits plus bit `d`. -/
theorem mod_pow_succ_eq (k d : Nat) :
    k % 2 ^ (d + 1) = k % 2 ^ d + k / 2 ^ d % 2 * 2 ^ d := by
  have h : k % (2 ^ d * 2) = k % 2 ^ d + 2 ^ d * (k / 2 ^ d % 2) := Nat.mod_mul
  have h2 : 2 ^ d * 2 = 2 ^ (d + 1) := by rw [Nat.pow_succ]
  rw [h2] at h
  have hb : k / 2 ^ d % 2 = 0 ∨ k / 2 ^ d % 2 = 1 := by omega
  rcases hb with hb | hb <;> rw [hb] at h ⊢ <;> omega

/-- Bits of `v + 2 ^ d` when `v < 2 ^ d`: bit `d` is set, the others are the
bits of `v`. -/
theorem testBit_add_pow (v d : Nat) (hv : v < 2 ^ d) (i : Nat) :
    (v + 2 ^ d).testBit i = if i = d then true else v.testBit i := by
  rcases Nat.lt_trichotomy i d with hi | hi | hi
  · have hdi : 2 ^ d = 2 ^ (d - i) * 2 ^ i := by
      rw [← Nat.pow_add]; congr 1; omega
    have hpos : 0 < 2 ^ i := Nat.pos_pow_of_pos i (by norm_num)
    have hdiv0 : (v + 2 ^ (d - i) * 2 ^ i) / 2 ^ i = v / 2 ^ i + 2 ^ (d - i) :=
      Nat.add_mul_div_right _ _ hpos
    rw [← hdi] at hdiv0
    have heven : ∃ c, 2 ^ (d - i) = 2 * c := ⟨2 ^ (d - i - 1), by
      rw [← Nat.pow_succ']; congr 1; omega⟩
    obtain ⟨c, hc⟩ := heven
    have hpar : (v + 2 ^ d) / 2 ^ i % 2 = v / 2 ^ i % 2 := by omega
    simp [Nat.testBit_to_div_mod, hpar, if_neg (by omega : ¬ i = d)]
  · subst hi
    have hdiv : (v + 2 ^ i) / 2 ^ i = 1 := by
      have hpos : 0 < 2 ^ i := Nat.pos_pow_of_pos i (by norm_num)
      have h1 : (v + 1 * 2 ^ i) / 2 ^ i = v / 2 ^ i + 1 := Nat.add_mul_div_right _ _ hpos
      rw [one_mul] at h1
      have hz : v / 2 ^ i = 0 := Nat.div_eq_of_lt hv
      omega
    simp [Nat.testBit_to_div_mod, hdiv]
  · have hlt : v + 2 ^ d < 2 ^ i := by
      have h1 : 2 ^ (d + 1) ≤ 2 ^ i := Nat.pow_le_pow_right (by norm_num) (by omega)
      have h2 : 2 ^ (d + 1) = 2 ^ d * 2 := Nat.pow_succ 2 d
      omega
    have hvi : v < 2 ^ i := by
      have h1 : 2 ^ d ≤ 2 ^ i := Nat.pow_le_pow_right (by norm_num) (by omega)
      omega
    rw [Nat.testBit_lt_two_pow hlt, Nat.testBit_lt_two_pow hvi, if_neg (by omega : ¬ i = d)]

/-- The `suffix` test of `split_atomic`, applied to the one-bit-longer
`1`-side path of a correctly placed leaf, reads exactly bit `d` of the
element's hash. -/
theorem suffix_spec (k d : Nat) :
    suffix (BS.prepend 1 ⟨d, k % 2 ^ d⟩) k = true ↔ k / 2 ^ d % 2 = 1 := by
  have hv : k % 2 ^ d < 2 ^ d := Nat.mod_lt _ (Nat.pos_pow_of_pos d (by norm_num))
  have hval : (BS.prepend 1 ⟨d, k % 2 ^ d⟩).value = k % 2 ^ d + 2 ^ d := by
    simp [BS.prepend]
  constructor
  · intro h
    have heq : (k % 2 ^ d + 2 ^ d) &&& k = k % 2 ^ d + 2 ^ d := by
      have h2 := h
      simp only [suffix, hval, beq_iff_eq] at h2
      exact h2
    have hbit := congrArg (Nat.testBit · d) heq
    simp only [Nat.testBit_land, testBit_add_pow _ _ hv d, if_pos rfl, Bool.true_and] at hbit
    simpa [Nat.testBit_to_div_mod] using hbit
  · intro h
    have hkd : k.testBit d = true := by simp [Nat.testBit_to_div_mod, h]
    have heq : (k % 2 ^ d + 2 ^ d) &&& k = k % 2 ^ d + 2 ^ d := by
      apply Nat.eq_of_testBit_eq
      intro i
      rw [Nat.testBit_land]
      rcases eq_or_ne i d with rfl | hi
      · simp [testBit_add_pow _ _ hv i, hkd]
      · rw [testBit_add_pow _ _ hv i, if_neg hi]
        rcases Nat.lt_or_ge i d with hlt | hge
        · rw [Nat.testBit_mod_two_pow]
          simp [hlt, Bool.and_self]
        · have : k % 2 ^ d < 2 ^ i := by
            have h1 : 2 ^ d ≤ 2 ^ i := Nat.pow_le_pow_right (by norm_num) hge
            omega
          simp [Nat.testBit_lt_two_pow this]
    simp only [suffix, hval, beq_iff_eq]
    exact heq

/-- Closed form of the iterated arithmetic shift of a 64-bit pattern: after
`j ≤ 64` shifts the low bits are `h / 2 ^ j` and the top `j` bits replicate
the sign bit. -/
theorem iterAsr_eq (j : Nat) : ∀ h, h < 2 ^ 64 → j ≤ 64 →
    iterAsr j h = h / 2 ^ j + h / 2 ^ 63 % 2 * (2 ^ 64 - 2 ^ (64 - j)) := by
  induction j with
  | zero => intro h _ _; simp [iterAsr]
  | succ j ih =>
    intro h hh hj
    have hstep : iterAsr (j + 1) h = iterAsr j (asr64 h) := rfl
    set s := h / 2 ^ 63 % 2 with hs
    have hs01 : s = 0 ∨ s = 1 := by omega
    have hasr : asr64 h = h / 2 + s * 2 ^ 63 := rfl
    have hlt : asr64 h < 2 ^ 64 := by
      have : h / 2 < 2 ^ 63 := by omega
      rcases hs01 with h0 | h0 <;> simp [hasr, h0] <;> omega
    have hsign : asr64 h / 2 ^ 63 % 2 = s := by
      have h1 : h / 2 < 2 ^ 63 := by omega
      have h2 : asr64 h / 2 ^ 63 = h / 2 / 2 ^ 63 + s := by
        rw [hasr, Nat.add_mul_div_right _ _ (Nat.pos_pow_of_pos 63 (by norm_num))]
      have h3 : h / 2 / 2 ^ 63 = 0 := Nat.div_eq_of_lt h1
      rcases hs01 with h0 | h0 <;> omega
    have hdiv : asr64 h / 2 ^ j = h / 2 ^ (j + 1) + s * 2 ^ (63 - j) := by
      have hj63 : j ≤ 63 := by omega
      have hsplit : 2 ^ 63 = 2 ^ (63 - j) * 2 ^ j := by
        rw [← Nat.pow_add]; congr 1; omega
      have hx : asr64 h = h / 2 + s * 2 ^ (63 - j) * 2 ^ j := by
        rw [hasr, mul_assoc, ← hsplit]
      have h1 : (h / 2 + s * 2 ^ (63 - j) * 2 ^ j) / 2 ^ j = h / 2 / 2 ^ j + s * 2 ^ (63 - j) :=
        Nat.add_mul_div_right _ _ (Nat.pos_pow_of_pos j (by norm_num))
      have h2 : h / 2 / 2 ^ j = h / 2 ^ (j + 1) := by
        rw [Nat.div_div_eq_div_mul, Nat.pow_succ']
      rw [hx, h1, h2]
    rw [hstep, ih (asr64 h) hlt (by omega), hsign, hdiv]
    have hpow : 2 ^ (64 - j) = 2 ^ (63 - j) * 2 := by
      rw [← Nat.pow_succ]; congr 1; omega
    have hle : 2 ^ (64 - j) ≤ 2 ^ 64 := Nat.pow_le_pow_right (by norm_num) (by omega)
    have hle2 : 2 ^ (64 - (j + 1)) ≤ 2 ^ 64 := Nat.pow_le_pow_right (by norm_num) (by omega)
    have hpow2 : 2 ^ (64 - j) = 2 ^ (64 - (j + 1)) * 2 := by
      rw [← Nat.pow_succ]; congr 1; omega
    rcases hs01 with h0 | h0 <;> rw [h0] <;> omega

/-- Parity of the descending index after `j ≤ 63` levels: bit `j` of the
original 64-bit pattern. -/
theorem iterAsr_mod_two (j h : Nat) (hh : h < 2 ^ 64) (hj : j ≤ 63) :
    iterAsr j h % 2 = h / 2 ^ j % 2 := by
  rw [iterAsr_eq j h hh (by omega)]
  have hpow : 2 ^ (64 - j) = 2 ^ (63 - j) * 2 := by
    rw [← Nat.pow_succ]; congr 1; omega
  have hle : 2 ^ (64 - j) ≤ 2 ^ 64 := Nat.pow_le_pow_right (by norm_num) (by omega)
  have hs : h / 2 ^ 63 % 2 = 0 ∨ h / 2 ^ 63 % 2 = 1 := by omega
  rcases hs with h0 | h0 <;> rw [h0] <;> omega


/-! ### The structural invariant of built tries -/

@[simp] theorem prepend_zero (d p : Nat) : BS.prepend 0 (⟨d, p⟩ : BS) = ⟨d + 1, p⟩ := by
  simp [BS.prepend]

@[simp] theorem prepend_one (d p : Nat) : BS.prepend 1 (⟨d, p⟩ : BS) = ⟨d + 1, p + 2 ^ d⟩ := by
  simp [BS.prepend]

theorem div_pow_succ (h d : Nat) : h / 2 ^ d / 2 = h / 2 ^ (d + 1) := by
  rw [Nat.div_div_eq_div_mul, Nat.pow_succ]

/-- Well-formedness of the bare subtree found under a built trie's `Root`,
at depth `d` with path value `p`: recorded paths match the position, every
leaf lies on its element's hash path at depth between `min_depth` and
`MAX_LEN`, branches stop before `MAX_LEN`, and no `Root`/`Name`/`Art` node
occurs (`mfn` rebuilds the subtree from bare constructors on every
insertion, and `empty` starts it as a bare `Nil`). -/
def Wf {X : Type} (H : X → Nat) (md : Int) : Nat → Nat → Trie X → Prop
  | d, p, .Nil bs => bs = ⟨d, p⟩ ∧ d ≤ MAX_LEN ∧ p < 2 ^ d
  | d, p, .Leaf bs y => bs = ⟨d, p⟩ ∧ hash64 H y % 2 ^ d = p ∧ md ≤ (d : Int) ∧ d ≤ MAX_LEN
  | d, p, .Bin bs l r =>
    bs = ⟨d, p⟩ ∧ d < MAX_LEN ∧ p < 2 ^ d ∧
      Wf H md (d + 1) p l ∧ Wf H md (d + 1) (p + 2 ^ d) r
  | _, _, .Root _ _ => False
  | _, _, .Name _ _ => False
  | _, _, .Art _ => False

/-- Powers of two step: `2 ^ (d + 1) = 2 ^ d * 2`, stated for `omega`. -/
theorem pow_succ_two (d : Nat) : 2 ^ (d + 1) = 2 ^ d * 2 := Nat.pow_succ 2 d

/-- Placement into a `Nil` (the `nilForce` chain) produces a well-formed
subtree holding exactly the inserted element, and re-inserting the same
element into the result is the identity. -/
theorem nilForce_wf {X : Type} [DecidableEq X] (H : X → Nat) (nm : NameT) (meta : Meta)
    (hmd : meta.min_depth ≤ (MAX_LEN : Int)) :
    ∀ (n d p : Nat) (x : X), n = (meta.min_depth - (d : Int)).toNat → d ≤ MAX_LEN →
      p < 2 ^ d → hash64 H x % 2 ^ d = p →
      Wf H meta.min_depth d p (nilForce n ⟨d, p⟩ x (hash64 H x / 2 ^ d)) ∧
      elems (nilForce n ⟨d, p⟩ x (hash64 H x / 2 ^ d)) = [x] ∧
      mfn H nm meta (nilForce n ⟨d, p⟩ x (hash64 H x / 2 ^ d)) ⟨d, p⟩ x (hash64 H x / 2 ^ d) =
        some (nilForce n ⟨d, p⟩ x (hash64 H x / 2 ^ d)) := by
  intro n
  induction n with
  | zero =>
    intro d p x hn hd hp hh
    have hmdd : meta.min_depth ≤ (d : Int) := by omega
    refine ⟨⟨rfl, hh, hmdd, hd⟩, rfl, ?_⟩
    exact mfn_leaf_keep H nm meta _ _ x x _ (Or.inr rfl)
  | succ n ih =>
    intro d p x hn hd hp hh
    have hdm : (d : Int) < meta.min_depth := by omega
    have hdlt : d < MAX_LEN := by omega
    have hb : hash64 H x / 2 ^ d % 2 = 0 ∨ hash64 H x / 2 ^ d % 2 = 1 := by omega
    have hmod := mod_pow_succ_eq (hash64 H x) d
    have hdiv := div_pow_succ (hash64 H x) d
    have hpow := pow_succ_two d
    have hn1 : n = (meta.min_depth - ((d + 1 : Nat) : Int)).toNat := by omega
    have hple : p < 2 ^ (d + 1) := by omega
    rcases hb with hb | hb
    · have hh1 : hash64 H x % 2 ^ (d + 1) = p := by rw [hb] at hmod; omega
      obtain ⟨ihw, ihe, ihr⟩ := ih (d + 1) p x hn1 (by omega) hple hh1
      rw [← hdiv] at ihw ihe ihr
      have hunf : nilForce (n + 1) (⟨d, p⟩ : BS) x (hash64 H x / 2 ^ d) =
          .Bin ⟨d, p⟩ (nilForce n ⟨d + 1, p⟩ x (hash64 H x / 2 ^ d / 2))
            (.Nil ⟨d + 1, p + 2 ^ d⟩) := by
        simp [nilForce, hb]
      rw [hunf]
      refine ⟨⟨rfl, hdlt, hp, ihw, ⟨rfl, by omega, by omega⟩⟩, ?_, ?_⟩
      · simp [elems, ihe]
      · simp [mfn, hb, ihr]
    · have hh1 : hash64 H x % 2 ^ (d + 1) = p + 2 ^ d := by rw [hb] at hmod; omega
      have hp1 : p + 2 ^ d < 2 ^ (d + 1) := by omega
      obtain ⟨ihw, ihe, ihr⟩ := ih (d + 1) (p + 2 ^ d) x hn1 (by omega) hp1 hh1
      rw [← hdiv] at ihw ihe ihr
      have hunf : nilForce (n + 1) (⟨d, p⟩ : BS) x (hash64 H x / 2 ^ d) =
          .Bin ⟨d, p⟩ (.Nil ⟨d + 1, p⟩)
            (nilForce n ⟨d + 1, p + 2 ^ d⟩ x (hash64 H x / 2 ^ d / 2)) := by
        simp [nilForce, hb]
      rw [hunf]
      refine ⟨⟨rfl, hdlt, hp, ⟨rfl, by omega, hple⟩, ihw⟩, ?_, ?_⟩
      · simp [elems, ihe]
      · simp [mfn, hb, ihr]


/-- Placement into a `Leaf` (the `leafIns` split chain) produces a
well-formed subtree whose elements are among the existing and the inserted
one; the existing element is kept; the inserted element lands unless it is
distinct from the existing one yet agrees with its hash on all `MAX_LEN`
placement bits (the silent-drop case at exhausted depth); and re-inserting
the same element into the result is the identity. -/
theorem leafIns_wf {X : Type} [DecidableEq X] (H : X → Nat) (nm : NameT) (meta : Meta)
    (hmd : meta.min_depth ≤ (MAX_LEN : Int)) :
    ∀ (n d p : Nat) (e x : X), n = MAX_LEN - d → d ≤ MAX_LEN →
      meta.min_depth ≤ (d : Int) → hash64 H e % 2 ^ d = p → hash64 H x % 2 ^ d = p →
      ∀ t', t' = leafIns H meta n ⟨d, p⟩ e x (hash64 H x / 2 ^ d) →
      Wf H meta.min_depth d p t' ∧
      (∀ y ∈ elems t', y = x ∨ y = e) ∧ e ∈ elems t' ∧
      ((x = e ∨ hash64 H x % 2 ^ MAX_LEN ≠ hash64 H e % 2 ^ MAX_LEN) → x ∈ elems t') ∧
      mfn H nm meta t' ⟨d, p⟩ x (hash64 H x / 2 ^ d) = some t' := by
  intro n
  induction n with
  | zero =>
    intro d p e x hn hd hmdd hhe hhx t' ht'
    have hd30 : d = MAX_LEN := by omega
    rw [ht']
    simp only [leafIns]
    refine ⟨⟨rfl, hhe, hmdd, hd⟩, ?_, ?_, ?_, ?_⟩
    · intro y hy
      simp [elems] at hy
      exact Or.inr hy
    · simp [elems]
    · intro hc
      rcases hc with hc | hc
      · simp [elems, hc]
      · exact absurd (by rw [← hd30, hhe, hhx]) hc
    · exact mfn_leaf_keep H nm meta _ _ e x _ (Or.inl (by show MAX_LEN ≤ d; omega))
  | succ n ih =>
    intro d p e x hn hd hmdd hhe hhx t' ht'
    have hdlt : d < MAX_LEN := by omega
    have hp : p < 2 ^ d := by
      rw [← hhe]; exact Nat.mod_lt _ (Nat.pos_pow_of_pos d (by norm_num))
    by_cases he : e = x
    · subst he
      rw [ht']
      simp only [leafIns, if_pos rfl]
      refine ⟨⟨rfl, hhe, hmdd, hd⟩, ?_, ?_, ?_, ?_⟩
      · intro y hy; simp [elems] at hy; exact Or.inr hy
      · simp [elems]
      · intro _; simp [elems]
      · exact mfn_leaf_keep H nm meta _ _ e e _ (Or.inr rfl)
    · have hpow := pow_succ_two d
      have hmodx := mod_pow_succ_eq (hash64 H x) d
      have hmode := mod_pow_succ_eq (hash64 H e) d
      have hdivx := div_pow_succ (hash64 H x) d
      have hn1 : n = MAX_LEN - (d + 1) := by omega
      have hbe : hash64 H e / 2 ^ d % 2 = 0 ∨ hash64 H e / 2 ^ d % 2 = 1 := by omega
      have hbx : hash64 H x / 2 ^ d % 2 = 0 ∨ hash64 H x / 2 ^ d % 2 = 1 := by omega
      have hiff := suffix_spec (hash64 H e) d
      rw [hhe] at hiff
      simp only [BS.prepend, one_mul] at hiff
      rcases hbe with hbe | hbe
      · -- the existing element stays in the 0-child
        have hst : suffix (⟨d + 1, p + 2 ^ d⟩ : BS) (hash64 H e) = false := by
          rcases Bool.eq_false_or_eq_true
              (suffix (⟨d + 1, p + 2 ^ d⟩ : BS) (hash64 H e)) with h0 | h0
          · exact absurd (hiff.mp h0) (by omega)
          · exact h0
        have hhe1 : hash64 H e % 2 ^ (d + 1) = p := by rw [hbe] at hmode; omega
        rcases hbx with hbx | hbx
        · -- both keep descending left: recursive split
          have hhx1 : hash64 H x % 2 ^ (d + 1) = p := by rw [hbx] at hmodx; omega
          have ht2 : t' = .Bin ⟨d, p⟩
              (leafIns H meta n ⟨d + 1, p⟩ e x (hash64 H x / 2 ^ (d + 1)))
              (.Nil ⟨d + 1, p + 2 ^ d⟩) := by
            rw [ht']
            simp [leafIns, he, hst, hbx, hdivx, BS.prepend]
          obtain ⟨W, A, E, C, R⟩ := ih (d + 1) p e x hn1 (by omega) (by omega) hhe1 hhx1 _ rfl
          rw [ht2]
          refine ⟨⟨rfl, hdlt, hp, W, ⟨rfl, by omega, by omega⟩⟩, ?_, ?_, ?_, ?_⟩
          · intro y hy; simp [elems] at hy; exact A y hy
          · simp [elems]; exact E
          · intro hc; simp [elems]; exact C hc
          · simp [mfn, hbx, hdivx, R]
        · -- the new element branches right into a fresh chain
          have hhx1 : hash64 H x % 2 ^ (d + 1) = p + 2 ^ d := by rw [hbx] at hmodx; omega
          obtain ⟨W, E, R⟩ := nilForce_wf H nm meta hmd
            ((meta.min_depth - ((d : Int) + 1)).toNat) (d + 1) (p + 2 ^ d) x (by omega)
            (by omega) (by omega) hhx1
          have ht2 : t' = .Bin ⟨d, p⟩ (.Leaf ⟨d + 1, p⟩ e)
              (nilForce ((meta.min_depth - ((d : Int) + 1)).toNat) ⟨d + 1, p + 2 ^ d⟩ x
                (hash64 H x / 2 ^ (d + 1))) := by
            rw [ht']
            simp [leafIns, he, hst, hbx, hdivx, BS.prepend]
          rw [ht2]
          refine ⟨⟨rfl, hdlt, hp, ⟨rfl, hhe1, by omega, by omega⟩, W⟩, ?_, ?_, ?_, ?_⟩
          · intro y hy; simp [elems, E] at hy
            rcases hy with hy | hy
            · exact Or.inr hy
            · exact Or.inl hy
          · simp [elems, E]
          · intro _; simp [elems, E]
          · simp [mfn, hbx, hdivx, R]
      · -- the existing element moves to the 1-child
        have hst : suffix (⟨d + 1, p + 2 ^ d⟩ : BS) (hash64 H e) = true := hiff.mpr hbe
        have hhe1 : hash64 H e % 2 ^ (d + 1) = p + 2 ^ d := by rw [hbe] at hmode; omega
        rcases hbx with hbx | hbx
        · -- the new element branches left into a fresh chain
          have hhx1 : hash64 H x % 2 ^ (d + 1) = p := by rw [hbx] at hmodx; omega
          obtain ⟨W, E, R⟩ := nilForce_wf H nm meta hmd
            ((meta.min_depth - ((d : Int) + 1)).toNat) (d + 1) p x (by omega)
            (by omega) (by omega) hhx1
          have ht2 : t' = .Bin ⟨d, p⟩
              (nilForce ((meta.min_depth - ((d : Int) + 1)).toNat) ⟨d + 1, p⟩ x
                (hash64 H x / 2 ^ (d + 1)))
              (.Leaf ⟨d + 1, p + 2 ^ d⟩ e) := by
            rw [ht']
            simp [leafIns, he, hst, hbx, hdivx, BS.prepend]
          rw [ht2]
          refine ⟨⟨rfl, hdlt, hp, W, ⟨rfl, hhe1, by omega, by omega⟩⟩, ?_, ?_, ?_, ?_⟩
          · intro y hy; simp [elems, E] at hy
            rcases hy with hy | hy
            · exact Or.inl hy
            · exact Or.inr hy
          · simp [elems, E]
          · intro _; simp [elems, E]
          · simp [mfn, hbx, hdivx, R]
        · -- both keep descending right: recursive split
          have hhx1 : hash64 H x % 2 ^ (d + 1) = p + 2 ^ d := by rw [hbx] at hmodx; omega
          have ht2 : t' = .Bin ⟨d, p⟩ (.Nil ⟨d + 1, p⟩)
              (leafIns H meta n ⟨d + 1, p + 2 ^ d⟩ e x (hash64 H x / 2 ^ (d + 1))) := by
            rw [ht']
            simp [leafIns, he, hst, hbx, hdivx]
          obtain ⟨W, A, E, C, R⟩ := ih (d + 1) (p + 2 ^ d) e x hn1 (by omega) (by omega)
            hhe1 hhx1 _ rfl
          rw [ht2]
          refine ⟨⟨rfl, hdlt, hp, ⟨rfl, by omega, by omega⟩, W⟩, ?_, ?_, ?_, ?_⟩
          · intro y hy; simp [elems] at hy; exact A y hy
          · simp [elems]; exact E
          · intro hc; simp [elems]; exact C hc
          · simp [mfn, hbx, hdivx, R]


/-- Master lemma for `mfn` on well-formed bare subtrees: placement succeeds,
preserves well-formedness, adds no element other than the inserted one,
keeps every existing element, lands the inserted element whenever its hash
differs on the `MAX_LEN` placement bits from every distinct existing
element, and placing the same element again returns the result unchanged. -/
theorem mfn_wf {X : Type} [DecidableEq X] (H : X → Nat) (nm : NameT) (meta : Meta)
    (hmd : meta.min_depth ≤ (MAX_LEN : Int)) :
    ∀ (t : Trie X) (d p : Nat) (x : X), Wf H meta.min_depth d p t →
      hash64 H x % 2 ^ d = p →
      ∃ t', mfn H nm meta t ⟨d, p⟩ x (hash64 H x / 2 ^ d) = some t' ∧
        Wf H meta.min_depth d p t' ∧
        (∀ y ∈ elems t', y = x ∨ y ∈ elems t) ∧
        (∀ y ∈ elems t, y ∈ elems t') ∧
        ((∀ y ∈ elems t, y ≠ x → hash64 H y % 2 ^ MAX_LEN ≠ hash64 H x % 2 ^ MAX_LEN) →
          x ∈ elems t') ∧
        mfn H nm meta t' ⟨d, p⟩ x (hash64 H x / 2 ^ d) = some t' := by
  intro t
  induction t with
  | Nil bs =>
    intro d p x hw hh
    obtain ⟨hbs, hd, hp⟩ := hw
    subst hbs
    obtain ⟨W, E, R⟩ := nilForce_wf H nm meta hmd
      ((meta.min_depth - ((d : Nat) : Int)).toNat) d p x rfl hd hp hh
    refine ⟨_, by simp [mfn], W, ?_, ?_, ?_, R⟩
    · intro y hy; rw [E] at hy; simp at hy; exact Or.inl hy
    · intro y hy; simp [elems] at hy
    · intro _; rw [E]; simp
  | Leaf bs e =>
    intro d p x hw hh
    obtain ⟨hbs, hhe, hmdd, hd⟩ := hw
    subst hbs
    obtain ⟨W, A, E, C, R⟩ := leafIns_wf H nm meta hmd (MAX_LEN - d) d p e x rfl hd hmdd
      hhe hh _ rfl
    refine ⟨_, by simp [mfn], W, ?_, ?_, ?_, R⟩
    · intro y hy
      rcases A y hy with h | h
      · exact Or.inl h
      · exact Or.inr (by simp [elems, h])
    · intro y hy
      simp [elems] at hy
      rw [hy]; exact E
    · intro hdis
      by_cases hxe : x = e
      · exact C (Or.inl hxe)
      · refine C (Or.inr ?_)
        have := hdis e (by simp [elems]) (fun h => hxe h.symm)
        exact fun h => this h.symm
  | Bin bs l r ihl ihr =>
    intro d p x hw hh
    obtain ⟨hbs, hdlt, hp, hwl, hwr⟩ := hw
    subst hbs
    have hpow := pow_succ_two d
    have hmodx := mod_pow_succ_eq (hash64 H x) d
    have hdivx := div_pow_succ (hash64 H x) d
    have hbx : hash64 H x / 2 ^ d % 2 = 0 ∨ hash64 H x / 2 ^ d % 2 = 1 := by omega
    rcases hbx with hbx | hbx
    · have hhx1 : hash64 H x % 2 ^ (d + 1) = p := by rw [hbx] at hmodx; omega
      obtain ⟨l', hl1, hl2, hl3, hl4, hl5, hl6⟩ := ihl (d + 1) p x hwl hhx1
      refine ⟨.Bin ⟨d, p⟩ l' r, by simp [mfn, hbx, hdivx, hl1], ⟨rfl, hdlt, hp, hl2, hwr⟩,
        ?_, ?_, ?_, by simp [mfn, hbx, hdivx, hl6]⟩
      · intro y hy
        simp [elems] at hy ⊢
        rcases hy with hy | hy
        · rcases hl3 y hy with h | h
          · exact Or.inl h
          · exact Or.inr (Or.inl h)
        · exact Or.inr (Or.inr hy)
      · intro y hy
        simp [elems] at hy ⊢
        rcases hy with hy | hy
        · exact Or.inl (hl4 y hy)
        · exact Or.inr hy
      · intro hdis
        simp [elems]
        refine Or.inl (hl5 ?_)
        intro y hy hne
        exact hdis y (by simp [elems, hy]) hne
    · have hhx1 : hash64 H x % 2 ^ (d + 1) = p + 2 ^ d := by rw [hbx] at hmodx; omega
      obtain ⟨r', hr1, hr2, hr3, hr4, hr5, hr6⟩ := ihr (d + 1) (p + 2 ^ d) x hwr hhx1
      refine ⟨.Bin ⟨d, p⟩ l r', by simp [mfn, hbx, hdivx, hr1], ⟨rfl, hdlt, hp, hwl, hr2⟩,
        ?_, ?_, ?_, by simp [mfn, hbx, hdivx, hr6]⟩
      · intro y hy
        simp [elems] at hy ⊢
        rcases hy with hy | hy
        · exact Or.inr (Or.inl hy)
        · rcases hr3 y hy with h | h
          · exact Or.inl h
          · exact Or.inr (Or.inr h)
      · intro y hy
        simp [elems] at hy ⊢
        rcases hy with hy | hy
        · exact Or.inl hy
        · exact Or.inr (hr4 y hy)
      · intro hdis
        simp [elems]
        refine Or.inr (hr5 ?_)
        intro y hy hne
        exact hdis y (by simp [elems, hy]) hne
  | Root m t iht =>
    intro d p x hw hh
    exact hw.elim
  | Name n t iht =>
    intro d p x hw hh
    exact hw.elim
  | Art t iht =>
    intro d p x hw hh
    exact hw.elim

/-! ### Built tries: the canonical `Name(Art(Root(..)))` wrapper -/

/-- The invariant of every trie value produced by `empty`/`singleton`/
`extend`: a `Name(_, Art(..))` wrapper whose articulation holds
`Root(m, Name(_, Art(sub)))` with `sub` a well-formed bare subtree, the
stored `min_depth` within `MAX_LEN`. -/
def GoodTop {X : Type} (H : X → Nat) (m : Meta) (t : Trie X) : Prop :=
  ∃ a b sub, t = .Name a (.Art (.Root m (.Name b (.Art sub)))) ∧
    Wf H m.min_depth 0 0 sub ∧ m.min_depth ≤ (MAX_LEN : Int)

/-- Tries built by `empty` followed by any sequence of successful `extend`
calls, indexed by the `Meta` stored at their root (for `empty`, the clamped
one). -/
inductive BuiltT {X : Type} [DecidableEq X] (H : X → Nat) : Meta → Trie X → Prop
  | base (meta : Meta) : BuiltT H ⟨min meta.min_depth (MAX_LEN : Int)⟩ (emptyT X meta)
  | step {m : Meta} {t t' : Trie X} (nm : NameT) (x : X) :
    BuiltT H m t → extendT H nm t x = some t' → BuiltT H m t'

/-- Elements of a `GoodTop` trie are the elements of its bare subtree. -/
theorem goodTop_elems {X : Type} {H : X → Nat} {m : Meta} {t : Trie X} (hg : GoodTop H m t) :
    ∃ a b sub, t = .Name a (.Art (.Root m (.Name b (.Art sub)))) ∧ elems t = elems sub :=
  by
  obtain ⟨a, b, sub, heq, _, _⟩ := hg
  exact ⟨a, b, sub, heq, by rw [heq]; simp [elems]⟩

/-- `extend` on a canonical trie: it succeeds, rewraps with the forked
names, and the new subtree is the master-lemma insertion result. -/
theorem extendT_spec {X : Type} [DecidableEq X] (H : X → Nat) (nm : NameT) (x : X)
    {m : Meta} {t : Trie X} (hg : GoodTop H m t) :
    ∃ sub', extendT H nm t x =
        some (.Name (fork nm).1 (.Art (.Root m (.Name (fork (fork nm).2).1 (.Art sub'))))) ∧
      Wf H m.min_depth 0 0 sub' ∧
      (∀ y ∈ elems sub', y = x ∨ y ∈ elems t) ∧
      (∀ y ∈ elems t, y ∈ elems sub') ∧
      ((∀ y ∈ elems t, y ≠ x → hash64 H y % 2 ^ MAX_LEN ≠ hash64 H x % 2 ^ MAX_LEN) →
        x ∈ elems sub') ∧
      mfn H (fork (fork nm).2).2 m sub' ⟨0, 0⟩ x (hash64 H x) = some sub' := by
  obtain ⟨a, b, sub, heq, hwf, hmd⟩ := hg
  subst heq
  have hh0 : hash64 H x % 2 ^ 0 = 0 := by rw [pow_zero]; exact Nat.mod_one _
  obtain ⟨sub', h1, h2, h3, h4, h5, h6⟩ :=
    mfn_wf H (fork (fork nm).2).2 m hmd sub 0 0 x hwf hh0
  rw [pow_zero, Nat.div_one] at h1 h6
  have helems : elems (Trie.Name a (.Art (.Root m (.Name b (.Art sub))))) = elems sub := by
    simp [elems]
  refine ⟨sub', ?_, h2, ?_, ?_, ?_, h6⟩
  · simp only [extendT, root_mfn, mfn, h1, Option.map_some']
  · intro y hy
    rcases h3 y hy with h | h
    · exact Or.inl h
    · exact Or.inr (by rw [helems]; exact h)
  · intro y hy
    rw [helems] at hy
    exact h4 y hy
  · intro hdis
    refine h5 ?_
    intro y hy hne
    exact hdis y (by rw [helems]; exact hy) hne

/-- A successful `extend` of a canonical trie yields a canonical trie with
the same root `Meta`. -/
theorem extendT_good {X : Type} [DecidableEq X] (H : X → Nat) {nm : NameT} {x : X}
    {m : Meta} {t t' : Trie X} (hg : GoodTop H m t) (hx : extendT H nm t x = some t') :
    GoodTop H m t' := by
  obtain ⟨sub', heq, hwf', _, _, _, _⟩ := extendT_spec H nm x hg
  obtain ⟨_, _, _, _, _, hmd⟩ := hg
  rw [heq] at hx
  obtain rfl : _ = t' := Option.some_injective _ hx
  exact ⟨_, _, sub', rfl, hwf', hmd⟩

/-- `empty` produces a canonical trie. -/
theorem emptyT_good {X : Type} (H : X → Nat) (meta : Meta) :
    GoodTop H ⟨min meta.min_depth (MAX_LEN : Int)⟩ (emptyT X meta) := by
  refine ⟨_, _, .Nil ⟨0, 0⟩, rfl, ?_, ?_⟩
  · exact ⟨rfl, by omega, by norm_num⟩
  · simp [min_le_right]

/-- Every built trie is canonical. -/
theorem builtT_good {X : Type} [DecidableEq X] {H : X → Nat} {m : Meta} {t : Trie X}
    (hb : BuiltT H m t) : GoodTop H m t := by
  induction hb with
  | base meta => exact emptyT_good H meta
  | step nm x _ hx ih => exact extendT_good H ih hx

/-- Re-extending with the same element and name is the identity on built
tries (the subtree insertion retraces the first insertion's path). -/
theorem extendT_idem {X : Type} [DecidableEq X] (H : X → Nat) {nm : NameT} {x : X}
    {m : Meta} {t t' : Trie X} (hg : GoodTop H m t) (hx : extendT H nm t x = some t') :
    extendT H nm t' x = some t' := by
  obtain ⟨sub', heq, hwf', _, _, _, hrerun⟩ := extendT_spec H nm x hg
  rw [heq] at hx
  obtain rfl : _ = t' := Option.some_injective _ hx
  simp only [extendT, root_mfn, mfn, hrerun, Option.map_some']

/-! ### Lookup correctness -/

/-- Every element of a well-formed subtree at `(d, p)` hashes to `p` on its
low `d` bits. -/
theorem wf_elems_hash {X : Type} (H : X → Nat) (md : Int) :
    ∀ (t : Trie X) (d p : Nat), Wf H md d p t → ∀ y ∈ elems t, hash64 H y % 2 ^ d = p := by
  intro t
  induction t with
  | Nil bs => intro d p hw y hy; simp [elems] at hy
  | Leaf bs e =>
    intro d p hw y hy
    simp [elems] at hy
    rw [hy]
    exact hw.2.1
  | Bin bs l r ihl ihr =>
    intro d p hw y hy
    obtain ⟨hbs, hdlt, hp, hwl, hwr⟩ := hw
    have hdvd : (2 : Nat) ^ d ∣ 2 ^ (d + 1) := pow_dvd_pow 2 (by omega)
    simp [elems] at hy
    rcases hy with hy | hy
    · have h1 := ihl (d + 1) p hwl y hy
      calc hash64 H y % 2 ^ d = hash64 H y % 2 ^ (d + 1) % 2 ^ d :=
            (Nat.mod_mod_of_dvd _ hdvd).symm
        _ = p % 2 ^ d := by rw [h1]
        _ = p := Nat.mod_eq_of_lt hp
    · have h1 := ihr (d + 1) (p + 2 ^ d) hwr y hy
      calc hash64 H y % 2 ^ d = hash64 H y % 2 ^ (d + 1) % 2 ^ d :=
            (Nat.mod_mod_of_dvd _ hdvd).symm
        _ = (p + 2 ^ d) % 2 ^ d := by rw [h1]
        _ = p := by rw [Nat.add_mod_right, Nat.mod_eq_of_lt hp]
  | Root meta t iht => intro d p hw; exact hw.elim
  | Name n t iht => intro d p hw; exact hw.elim
  | Art t iht => intro d p hw; exact hw.elim

/-- The lookup index `i` tracks hash `h` from depth `d` on: at every level
up to `MAX_LEN` its parity under iterated arithmetic shifts agrees with the
corresponding hash bit. -/
def Tracks (h d i : Nat) : Prop :=
  ∀ j : Nat, d + j ≤ MAX_LEN → iterAsr j i % 2 = h / 2 ^ (d + j) % 2

theorem tracks_init (h : Nat) (hh : h < 2 ^ 64) : Tracks h 0 h := by
  intro j hj
  rw [Nat.zero_add]
  exact iterAsr_mod_two j h hh (by have : MAX_LEN = 30 := rfl; omega)

theorem tracks_step {h d i : Nat} (ht : Tracks h d i) : Tracks h (d + 1) (asr64 i) := by
  intro j hj
  have h1 := ht (j + 1) (by omega)
  have h2 : d + (j + 1) = d + 1 + j := by omega
  rw [h2] at h1
  exact h1

/-- `find` on a well-formed subtree locates any stored element when given an
index tracking that element's hash. -/
theorem findT_mem {X : Type} [DecidableEq X] (H : X → Nat) (md : Int) :
    ∀ (t : Trie X) (d p : Nat) (x : X) (i : Nat), Wf H md d p t → x ∈ elems t →
      Tracks (hash64 H x) d i → findT t x i = some x := by
  intro t
  induction t with
  | Nil bs => intro d p x i hw hx ht; simp [elems] at hx
  | Leaf bs e =>
    intro d p x i hw hx ht
    simp [elems] at hx
    rw [hx]
    simp [findT]
  | Bin bs l r ihl ihr =>
    intro d p x i hw hx ht
    obtain ⟨hbs, hdlt, hp, hwl, hwr⟩ := hw
    have hmodx := mod_pow_succ_eq (hash64 H x) d
    have hpar := ht 0 (by omega)
    simp only [iterAsr, Nat.add_zero] at hpar
    simp [elems] at hx
    rcases hx with hx | hx
    · have hh1 : hash64 H x % 2 ^ (d + 1) = p := wf_elems_hash H md l (d + 1) p hwl x hx
      have hb : hash64 H x / 2 ^ d % 2 = 0 := by
        have hlow : hash64 H x % 2 ^ d < 2 ^ d :=
          Nat.mod_lt _ (Nat.pos_pow_of_pos d (by norm_num))
        rcases (by omega : hash64 H x / 2 ^ d % 2 = 0 ∨ hash64 H x / 2 ^ d % 2 = 1)
          with h0 | h0
        · exact h0
        · rw [h0] at hmodx; omega
      have hi : i % 2 = 0 := by rw [hpar, hb]
      simp only [findT, hi, if_pos rfl]
      exact ihl (d + 1) p x (asr64 i) hwl hx (tracks_step ht)
    · have hh1 : hash64 H x % 2 ^ (d + 1) = p + 2 ^ d :=
        wf_elems_hash H md r (d + 1) (p + 2 ^ d) hwr x hx
      have hb : hash64 H x / 2 ^ d % 2 = 1 := by
        have hlow : hash64 H x % 2 ^ d < 2 ^ d :=
          Nat.mod_lt _ (Nat.pos_pow_of_pos d (by norm_num))
        have hwx := wf_elems_hash H md r (d + 1) (p + 2 ^ d) hwr x hx
        rcases (by omega : hash64 H x / 2 ^ d % 2 = 0 ∨ hash64 H x / 2 ^ d % 2 = 1)
          with h0 | h0
        · rw [h0] at hmodx
          have hpow := pow_succ_two d
          omega
        · exact h0
      have hi : ¬ i % 2 = 0 := by rw [hpar, hb]; omega
      simp only [findT]
      rw [if_neg hi]
      exact ihr (d + 1) (p + 2 ^ d) x (asr64 i) hwr hx (tracks_step ht)
  | Root meta t iht => intro d p x i hw; exact hw.elim
  | Name n t iht => intro d p x i hw; exact hw.elim
  | Art t iht => intro d p x i hw; exact hw.elim

/-- `find` never returns an element that is not stored. -/
theorem findT_none {X : Type} [DecidableEq X] :
    ∀ (t : Trie X) (x : X) (i : Nat), x ∉ elems t → findT t x i = none := by
  intro t
  induction t with
  | Nil bs => intro x i hx; simp [findT]
  | Leaf bs e =>
    intro x i hx
    simp [elems] at hx
    simp [findT, hx]
  | Bin bs l r ihl ihr =>
    intro x i hx
    simp [elems] at hx
    simp only [findT]
    split
    · exact ihl x _ hx.1
    · exact ihr x _ hx.2
  | Root meta t iht => intro x i hx; simp [elems] at hx; simp [findT, iht x i hx]
  | Name n t iht => intro x i hx; simp [elems] at hx; simp [findT, iht x i hx]
  | Art t iht => intro x i hx; simp [elems] at hx; simp [findT, iht x i hx]

/-- The map view's `find_hash` never returns a binding whose key is not the
domain of any stored pair. -/
theorem findHash_none {Dom Cod : Type} [DecidableEq Dom] :
    ∀ (t : Trie (Dom × Cod)) (k : Dom) (i : Nat),
      (∀ pa ∈ elems t, pa.1 ≠ k) → findHash t k i = none := by
  intro t
  induction t with
  | Nil bs => intro k i hk; simp [findHash]
  | Leaf bs e =>
    intro k i hk
    have he := hk e (by simp [elems])
    have hne : ¬ k = e.1 := fun h => he h.symm
    simp [findHash, hne]
  | Bin bs l r ihl ihr =>
    intro k i hk
    simp only [findHash]
    split
    · exact ihl k _ fun pa hpa => hk pa (by simp [elems, hpa])
    · exact ihr k _ fun pa hpa => hk pa (by simp [elems, hpa])
  | Root meta t iht =>
    intro k i hk
    exact iht k i fun pa hpa => hk pa (by simp [elems, hpa])
  | Name n t iht =>
    intro k i hk
    exact iht k i fun pa hpa => hk pa (by simp [elems, hpa])
  | Art t iht =>
    intro k i hk
    exact iht k i fun pa hpa => hk pa (by simp [elems, hpa])

/-- The map view's `find_hash` on a well-formed subtree returns the stored
codomain of a stored pair when given an index tracking that pair's
placement hash. -/
theorem findHash_mem {Dom Cod : Type} [DecidableEq Dom] (HX : Dom × Cod → Nat) (md : Int) :
    ∀ (t : Trie (Dom × Cod)) (d p : Nat) (k : Dom) (v : Cod) (i : Nat),
      Wf HX md d p t → (k, v) ∈ elems t → Tracks (hash64 HX (k, v)) d i →
      findHash t k i = some v := by
  intro t
  induction t with
  | Nil bs => intro d p k v i hw hx ht; simp [elems] at hx
  | Leaf bs e =>
    intro d p k v i hw hx ht
    simp [elems] at hx
    rw [← hx]
    simp [findHash]
  | Bin bs l r ihl ihr =>
    intro d p k v i hw hx ht
    obtain ⟨hbs, hdlt, hp, hwl, hwr⟩ := hw
    have hmodx := mod_pow_succ_eq (hash64 HX (k, v)) d
    have hpar := ht 0 (by omega)
    simp only [iterAsr, Nat.add_zero] at hpar
    have hlow : hash64 HX (k, v) % 2 ^ d < 2 ^ d :=
      Nat.mod_lt _ (Nat.pos_pow_of_pos d (by norm_num))
    simp [elems] at hx
    rcases hx with hx | hx
    · have hh1 : hash64 HX (k, v) % 2 ^ (d + 1) = p :=
        wf_elems_hash HX md l (d + 1) p hwl (k, v) hx
      have hb : hash64 HX (k, v) / 2 ^ d % 2 = 0 := by
        rcases (by omega : hash64 HX (k, v) / 2 ^ d % 2 = 0 ∨
            hash64 HX (k, v) / 2 ^ d % 2 = 1) with h0 | h0
        · exact h0
        · rw [h0] at hmodx; omega
      have hi : i % 2 = 0 := by rw [hpar, hb]
      simp only [findHash, hi, if_pos rfl]
      exact ihl (d + 1) p k v (asr64 i) hwl hx (tracks_step ht)
    · have hh1 : hash64 HX (k, v) % 2 ^ (d + 1) = p + 2 ^ d :=
        wf_elems_hash HX md r (d + 1) (p + 2 ^ d) hwr (k, v) hx
      have hb : hash64 HX (k, v) / 2 ^ d % 2 = 1 := by
        rcases (by omega : hash64 HX (k, v) / 2 ^ d % 2 = 0 ∨
            hash64 HX (k, v) / 2 ^ d % 2 = 1) with h0 | h0
        · rw [h0] at hmodx
          have hpow := pow_succ_two d
          omega
        · exact h0
      have hi : ¬ i % 2 = 0 := by rw [hpar, hb]; omega
      simp only [findHash]
      rw [if_neg hi]
      exact ihr (d + 1) (p + 2 ^ d) k v (asr64 i) hwr hx (tracks_step ht)
  | Root meta t iht => intro d p k v i hw; exact hw.elim
  | Name n t iht => intro d p k v i hw; exact hw.elim
  | Art t iht => intro d p k v i hw; exact hw.elim

/-- An empty-reporting trie holds no elements. -/
theorem isEmptyT_elems {X : Type} : ∀ t : Trie X, isEmptyT t = true → elems t = [] := by
  intro t
  induction t with
  | Nil bs => intro _; rfl
  | Leaf bs e => intro h; simp [isEmptyT] at h
  | Bin bs l r ihl ihr => intro h; simp [isEmptyT] at h
  | Root meta t iht => intro h; exact iht (by simpa [isEmptyT] using h)
  | Name n t iht => intro h; exact iht (by simpa [isEmptyT] using h)
  | Art t iht => intro h; exact iht (by simpa [isEmptyT] using h)

/-- The set view's empty trie is canonical with stored `min_depth = 1`. -/
theorem setEmpty_good {α : Type} (H : α × Unit → Nat) : GoodTop H ⟨1⟩ (setEmpty α) := by
  have h := emptyT_good (X := α × Unit) H ⟨1⟩
  have hm : (⟨min (1 : Int) (MAX_LEN : Int)⟩ : Meta) = ⟨1⟩ := by norm_num [MAX_LEN]
  rw [hm] at h
  exact h

/-- A hash assignment under which the elements `0` and `1` collide on all
`MAX_LEN` low bits while remaining distinct 64-bit hashes. -/
def hashColl : Nat × Unit → Nat := fun p => if p.1 = 0 then 0 else if p.1 = 1 then 2 ^ 30 else p.1

/-- A concretely built one-element set trie (hash 0, `min_depth` 1). -/
def egSet1 : Trie (Nat × Unit) :=
  (extendT (fun _ => (0 : Nat)) NameT.unit (emptyT (Nat × Unit) ⟨1⟩) (5, ())).getD (.Nil ⟨0, 0⟩)

/-- A concretely built one-element set via the set view (projection hash). -/
def egC4 : Trie (Nat × Unit) :=
  (setAdd (fun p => p.1) (setEmpty Nat) 5).getD (.Nil ⟨0, 0⟩)

/-! ### Fold-up structure -/

theorem eager_eq_stripArt {X : Type} : ∀ t : Trie X, eager_trie_of_trie t = stripArt t := by
  intro t
  induction t with
  | Nil bs => rfl
  | Leaf bs x => rfl
  | Bin bs l r ihl ihr =>
    simp only [eager_trie_of_trie] at ihl ihr ⊢
    simp [trie_fold_up, stripArt, ihl, ihr]
  | Root m t iht =>
    simp only [eager_trie_of_trie] at iht ⊢
    simp [trie_fold_up, stripArt, iht]
  | Name n t iht =>
    simp only [eager_trie_of_trie] at iht ⊢
    simp [trie_fold_up, stripArt, iht]
  | Art t iht =>
    simp only [eager_trie_of_trie] at iht ⊢
    simp [trie_fold_up, stripArt, iht]

theorem stripArt_artFree {X : Type} : ∀ t : Trie X, hasArt (stripArt t) = false := by
  intro t
  induction t with
  | Nil bs => rfl
  | Leaf bs x => rfl
  | Bin bs l r ihl ihr => simp [stripArt, hasArt, ihl, ihr]
  | Root m t iht => simp [stripArt, hasArt, iht]
  | Name n t iht => simp [stripArt, hasArt, iht]
  | Art t iht => simp [stripArt, hasArt, iht]

/-! ### Claims -/

/-- C9: `is_empty(empty())` is true; `is_empty(add(empty(), x))` is false
for every element `x` (and every hash function); `mem(empty(), x)` is false
for every `x`. -/
theorem claim_c9 {α : Type} [DecidableEq α] (H : α × Unit → Nat) (x : α) :
    isEmptyT (setEmpty α) = true ∧
      (setAdd H (setEmpty α) x).map isEmptyT = some false ∧
      memSet H (setEmpty α) x = false := by
  have hemp : elems (setEmpty α) = [] := rfl
  refine ⟨rfl, ?_, ?_⟩
  · obtain ⟨sub', heq, hwf', hsubs, hsup, hland, _⟩ :=
      extendT_spec H NameT.unit (x, ()) (setEmpty_good H)
    have hin : (x, ()) ∈ elems sub' := by
      refine hland ?_
      rw [hemp]
      intro y hy
      simp at hy
    have hfalse : isEmptyT sub' = false := by
      rcases Bool.eq_false_or_eq_true (isEmptyT sub') with h0 | h0
      · rw [isEmptyT_elems sub' h0] at hin
        simp at hin
      · exact h0
    rw [show setAdd H (setEmpty α) x = extendT H NameT.unit (setEmpty α) (x, ()) from rfl, heq]
    show some (isEmptyT sub') = some false
    rw [hfalse]
  · have hnone := findT_none (setEmpty α) (x, ()) (hash64 H (x, ())) (by rw [hemp]; simp)
    simp [memSet, hnone]

/-- C5 counterexample: inserting an element that collides with a stored one
on all `MAX_LEN` placement bits does not panic — `extend` returns normally
(`isSome`) and the new element is silently dropped (the set does not contain
it), contradicting the claim that this situation is fatal. -/
theorem claim_c5_counterexample :
    (buildSet hashColl [0, 1]).isSome = true ∧
      (buildSet hashColl [0, 1]).map (fun s => decide ((1, ()) ∈ elems s)) = some false := by
  constructor
  · decide
  · decide

/-- C5 (amended): at a `Leaf` whose path length has reached `MAX_LEN`,
`mfn` returns the existing leaf unchanged for any inserted element —
distinct or not — silently dropping the insertion; the `panic!` branch of
that case is unreachable. -/
theorem claim_c5 {X : Type} [DecidableEq X] (H : X → Nat) (nm : NameT) (meta : Meta)
    (nb bs : BS) (e x : X) (hash : Nat) (hlen : MAX_LEN ≤ bs.length) :
    mfn H nm meta (.Leaf nb e) bs x hash = some (.Leaf bs e) :=
  mfn_leaf_keep H nm meta nb bs e x hash (Or.inl hlen)

/-- C5 witness: the amended no-panic behaviour at a concrete exhausted leaf
with a distinct element. -/
theorem claim_c5_witness :
    MAX_LEN ≤ (30 : Nat) ∧
      mfn (fun _ => (0 : Nat)) NameT.unit ⟨1⟩ (.Leaf ⟨30, 0⟩ (7 : Nat)) ⟨30, 0⟩ 8 0 =
        some (.Leaf ⟨30, 0⟩ 7) :=
  ⟨by decide, claim_c5 (fun _ => (0 : Nat)) NameT.unit ⟨1⟩ ⟨30, 0⟩ ⟨30, 0⟩ 7 8 0 (by decide)⟩

/-- C6 counterexample: `eager_trie_of_trie` rebuilds `Name` nodes (its name
hook is the `name` constructor), so its output is not free of `Name` nodes
as the claim states. -/
theorem claim_c6_counterexample :
    eager_trie_of_trie (.Name NameT.unit (.Nil ⟨0, 0⟩) : Trie Nat) =
        .Name NameT.unit (.Nil ⟨0, 0⟩) ∧
      hasName (eager_trie_of_trie (.Name NameT.unit (.Nil ⟨0, 0⟩) : Trie Nat)) = true := by
  constructor
  · rfl
  · rfl

/-- C6 (amended): the bottom-up fold `eager_trie_of_trie` produces the
input trie with every `Art` (articulation) layer removed and all other
structure — `Nil`/`Leaf`/`Bin`/`Root` and also `Name` — preserved; the copy
contains no `Art` node. -/
theorem claim_c6 {X : Type} (t : Trie X) :
    eager_trie_of_trie t = stripArt t ∧ hasArt (eager_trie_of_trie t) = false :=
  ⟨eager_eq_stripArt t, by rw [eager_eq_stripArt t]; exact stripArt_artFree t⟩

/-- C7 counterexample: a non-empty trie built with `min_depth = 31` (above
`MAX_LEN = 30`) has a leaf at depth 30 < 31, because `empty` clamps the
stored `min_depth` to `MAX_LEN`. -/
theorem claim_c7_counterexample :
    (extendT (fun _ => (0 : Nat)) NameT.unit (emptyT Nat ⟨31⟩) 5).map (leavesGE 31) =
      some false := by decide

/-- Every leaf of a well-formed subtree lies at depth at least the
configured `min_depth`. -/
theorem wf_leavesGE {X : Type} (H : X → Nat) (md : Int) :
    ∀ (t : Trie X) (d p : Nat), Wf H md d p t → leavesGE md t = true := by
  intro t
  induction t with
  | Nil bs => intro d p hw; rfl
  | Leaf bs e =>
    intro d p hw
    obtain ⟨hbs, _, hmdd, _⟩ := hw
    subst hbs
    simpa [leavesGE] using hmdd
  | Bin bs l r ihl ihr =>
    intro d p hw
    obtain ⟨hbs, _, _, hwl, hwr⟩ := hw
    simp [leavesGE, ihl _ _ hwl, ihr _ _ hwr]
  | Root m t iht => intro d p hw; exact hw.elim
  | Name n t iht => intro d p hw; exact hw.elim
  | Art t iht => intro d p hw; exact hw.elim

/-- C7 (amended): every non-empty trie built with `min_depth = d` via
`empty` and `extend` has all leaves at depth at least the *stored* (clamped)
`min_depth`, i.e. at least `min d MAX_LEN`; the claimed bound `d` itself
fails when `d > MAX_LEN`. -/
theorem claim_c7 {X : Type} [DecidableEq X] (H : X → Nat) {m : Meta} {t : Trie X}
    (hb : BuiltT H m t) : leavesGE m.min_depth t = true := by
  obtain ⟨a, b, sub, heq, hwf, hmd⟩ := builtT_good hb
  subst heq
  simp [leavesGE, wf_leavesGE H m.min_depth sub 0 0 hwf]

/-- C7 witness: the amended bound on a concretely built one-element trie. -/
theorem claim_c7_witness :
    leavesGE (Meta.min_depth ⟨min (1 : Int) (MAX_LEN : Int)⟩) egSet1 = true :=
  claim_c7 (fun _ => (0 : Nat)) (BuiltT.step NameT.unit (5, ()) (BuiltT.base ⟨1⟩) (by decide))

/-- C8 counterexample: `empty({min_depth: -1})` stores `min_depth = -1`,
outside the claimed interval `[0, MAX_LEN]` — the code clamps only from
above (`min(min_depth, MAX_LEN)`), never from below. -/
theorem claim_c8_counterexample :
    rootMeta (emptyT (Nat × Unit) ⟨-1⟩) = some ⟨-1⟩ ∧ ((-1 : Int) < 0) := by
  constructor
  · decide
  · decide

/-- C8 (amended): `empty(meta)` stores exactly `min(meta.min_depth,
MAX_LEN)` — clamped from above only, so within `[0, MAX_LEN]` whenever the
input is non-negative — and returns precisely
`Name(n1, Art(Root(meta', Name(n2, Art(Nil(bs0))))))` with `bs0` the
zero-length path and `n1`, `n2` forked from the fixed base name. -/
theorem claim_c8 (X : Type) (meta : Meta) :
    emptyT X meta =
      .Name (fork (NameT.ofStr "trie_empty")).1
        (.Art (.Root ⟨min meta.min_depth (MAX_LEN : Int)⟩
          (.Name (fork (NameT.ofStr "trie_empty")).2 (.Art (.Nil ⟨0, 0⟩))))) ∧
      min meta.min_depth (MAX_LEN : Int) ≤ (MAX_LEN : Int) ∧
      (0 ≤ meta.min_depth → 0 ≤ min meta.min_depth (MAX_LEN : Int)) :=
  ⟨rfl, min_le_right _ _, fun h => le_min h (by norm_num [MAX_LEN])⟩

/-- C8 witness: the amended statement at the concrete input
`min_depth = 5`, the inner implication discharged. -/
theorem claim_c8_witness :
    (0 : Int) ≤ 5 ∧
      emptyT (Nat × Unit) ⟨5⟩ =
        .Name (fork (NameT.ofStr "trie_empty")).1
          (.Art (.Root ⟨min (5 : Int) (MAX_LEN : Int)⟩
            (.Name (fork (NameT.ofStr "trie_empty")).2 (.Art (.Nil ⟨0, 0⟩))))) ∧
      0 ≤ min (5 : Int) (MAX_LEN : Int) :=
  ⟨by decide, (claim_c8 (Nat × Unit) ⟨5⟩).1, (claim_c8 (Nat × Unit) ⟨5⟩).2.2 (by decide)⟩

/-- C10 counterexample: the output of `empty({min_depth: 31})` forces to a
`Root` carrying the clamped `Meta {min_depth: 30}`, not the same `Meta` as
the input. -/
theorem claim_c10_counterexample :
    rootMeta (emptyT (Nat × Unit) ⟨31⟩) = some ⟨30⟩ ∧ (⟨30⟩ : Meta) ≠ (⟨31⟩ : Meta) := by
  constructor
  · decide
  · decide

/-- C10 (amended): every trie built by `empty`/`singleton`/`extend` has the
canonical shape `Name(_, Art(..))`, its articulation forces (through
`Name`/`Art` layers) to a `Root` carrying the stored `Meta` (for `empty`
the input `Meta` clamped to `min_depth ≤ MAX_LEN`, preserved exactly by
every `extend`), and feeding it back into `extend` always succeeds — the
fatal non-`Name`/non-`Root` entry branches of `root_mfn` are never
reached. -/
theorem claim_c10 {X : Type} [DecidableEq X] (H : X → Nat) {m : Meta} {t : Trie X}
    (hb : BuiltT H m t) :
    (∃ nm a, t = .Name nm (.Art a)) ∧ rootMeta t = some m ∧
      ∀ (nm : NameT) (y : X), (extendT H nm t y).isSome := by
  obtain ⟨a, b, sub, heq, hwf, hmd⟩ := builtT_good hb
  subst heq
  refine ⟨⟨_, _, rfl⟩, rfl, ?_⟩
  intro nm y
  obtain ⟨sub', hx, _⟩ := extendT_spec H nm y ⟨a, b, sub, rfl, hwf, hmd⟩
  rw [hx]
  rfl

/-- C10 witness: the amended statement on a concretely built one-element
set trie. -/
theorem claim_c10_witness :
    (∃ nm a, egSet1 = .Name nm (.Art a)) ∧
      rootMeta egSet1 = some ⟨min (1 : Int) (MAX_LEN : Int)⟩ ∧
      ∀ (nm : NameT) (y : Nat × Unit),
        (extendT (fun _ => (0 : Nat)) nm egSet1 y).isSome :=
  claim_c10 (fun _ => (0 : Nat)) (BuiltT.step NameT.unit (5, ()) (BuiltT.base ⟨1⟩) (by decide))

/-- C4: for every built set `S` and element `x`, `add(add(S, x), x)` is
structurally equal to `add(S, x)`: re-inserting retraces the first
insertion's path, rebuilds the identical subtree, and the surrounding
names are the same unit-forked names, so the whole values coincide. -/
theorem claim_c4 {α : Type} [DecidableEq α] (H : α × Unit → Nat) {m : Meta}
    {s t1 : Trie (α × Unit)} (x : α) (hb : BuiltT H m s)
    (h1 : setAdd H s x = some t1) : setAdd H t1 x = some t1 :=
  extendT_idem H (builtT_good hb) h1

/-- C4 witness: idempotent re-insertion on a concrete one-element set. -/
theorem claim_c4_witness : setAdd (fun p => p.1) egC4 5 = some egC4 :=
  claim_c4 (fun p => p.1) 5 (BuiltT.base ⟨1⟩) (by decide)

/-- A lookup hash assignment for C1's counterexample: every key hashes to
`1` (low bit set). -/
def hashDom1 : Nat → Nat := fun _ => 1

/-- A placement hash assignment for C1's counterexample: every pair hashes
to `0` (all placement bits clear). -/
def hashPair0 : Nat × Nat → Nat := fun _ => 0

/-- Fold invariant for `buildSet`: starting from a canonical trie whose
element set is exactly `acc`, folding the insertions `xs` succeeds and
yields a canonical trie whose element set is exactly `acc ++ xs`, provided
all involved elements are pairwise hash-separated on the `MAX_LEN`
placement bits. -/
theorem buildSet_aux {α : Type} [DecidableEq α] (H : α × Unit → Nat) :
    ∀ (xs : List α) (m : Meta) (s : Trie (α × Unit)) (acc : List α),
      GoodTop H m s →
      (∀ a : α, (a, ()) ∈ elems s ↔ a ∈ acc) →
      (∀ a ∈ acc ++ xs, ∀ b ∈ acc ++ xs, a ≠ b →
        hash64 H (a, ()) % 2 ^ MAX_LEN ≠ hash64 H (b, ()) % 2 ^ MAX_LEN) →
      ∃ s', List.foldlM (fun s x => setAdd H s x) s xs = some s' ∧ GoodTop H m s' ∧
        ∀ a : α, ((a, ()) ∈ elems s' ↔ a ∈ acc ++ xs) := by
  intro xs
  induction xs with
  | nil =>
    intro m s acc hg hmem hdis
    exact ⟨s, rfl, hg, by simpa using hmem⟩
  | cons x xs ih =>
    intro m s acc hg hmem hdis
    obtain ⟨sub', heq, hwf', hsubs, hsup, hland, _⟩ := extendT_spec H NameT.unit (x, ()) hg
    have hg1 : GoodTop H m
        (.Name (fork NameT.unit).1
          (.Art (.Root m (.Name (fork (fork NameT.unit).2).1 (.Art sub'))))) :=
      extendT_good H hg heq
    have hel1 : elems (Trie.Name (fork NameT.unit).1
        (.Art (.Root m (.Name (fork (fork NameT.unit).2).1 (.Art sub'))))) = elems sub' := by
      simp [elems]
    have hmem1 : ∀ a : α, ((a, ()) ∈ elems (Trie.Name (fork NameT.unit).1
        (.Art (.Root m (.Name (fork (fork NameT.unit).2).1 (.Art sub'))))) ↔ a ∈ x :: acc) := by
      intro a
      rw [hel1]
      constructor
      · intro ha
        rcases hsubs _ ha with h | h
        · simp at h
          simp [h]
        · exact List.mem_cons_of_mem _ ((hmem a).mp h)
      · intro ha
        rcases List.mem_cons.mp ha with h | h
        · subst h
          refine hland ?_
          intro y hy hne
          obtain ⟨b, u⟩ := y
          cases u
          have hb : b ∈ acc := (hmem b).mp hy
          have hbx : b ≠ a := fun hba => hne (by rw [hba])
          exact hdis b (by simp [hb]) a (by simp) hbx
        · exact hsup _ ((hmem a).mpr h)
    have hdis1 : ∀ a ∈ (x :: acc) ++ xs, ∀ b ∈ (x :: acc) ++ xs, a ≠ b →
        hash64 H (a, ()) % 2 ^ MAX_LEN ≠ hash64 H (b, ()) % 2 ^ MAX_LEN := by
      intro a ha b hb hne
      refine hdis a ?_ b ?_ hne
      · simp at ha ⊢; tauto
      · simp at hb ⊢; tauto
    obtain ⟨s', h1, h2, h3⟩ := ih m _ (x :: acc) hg1 hmem1 hdis1
    have hstep : setAdd H s x = some (Trie.Name (fork NameT.unit).1
        (.Art (.Root m (.Name (fork (fork NameT.unit).2).1 (.Art sub'))))) := heq
    refine ⟨s', ?_, h2, ?_⟩
    · rw [List.foldlM_cons, hstep]
      simpa using h1
    · intro a
      rw [h3]
      simp
      tauto

/-- C2 counterexample: under a hash assignment where the distinct elements
`0` and `1` agree on all `MAX_LEN` placement bits, inserting `0` then `1`
silently drops `1`, so `mem` is false for an inserted element. -/
theorem claim_c2_counterexample :
    (buildSet hashColl [0, 1]).map (fun s => memSet hashColl s 1) = some false ∧
      (1 : Nat) ∈ [0, 1] := by
  constructor
  · decide
  · decide

/-- C2 (amended): for every finite sequence of insertions whose distinct
elements are pairwise distinguished by their hashes within the `MAX_LEN`
placement bits, the build succeeds and `mem(S, x)` is true exactly for the
inserted elements — in particular false for every element never inserted
(which needs no hash side condition). -/
theorem claim_c2 {α : Type} [DecidableEq α] (H : α × Unit → Nat) (xs : List α)
    (hdis : ∀ a ∈ xs, ∀ b ∈ xs, a ≠ b →
      hash64 H (a, ()) % 2 ^ MAX_LEN ≠ hash64 H (b, ()) % 2 ^ MAX_LEN) :
    ∃ s, buildSet H xs = some s ∧ ∀ x : α, (memSet H s x = true ↔ x ∈ xs) := by
  obtain ⟨s, h1, hg, hmem⟩ := buildSet_aux H xs ⟨1⟩ (setEmpty α) [] (setEmpty_good H)
    (by intro a; rw [show elems (setEmpty α) = [] from rfl]; simp)
    (by simpa using hdis)
  refine ⟨s, h1, ?_⟩
  intro x
  constructor
  · intro hm
    by_contra hx
    have hnot : (x, ()) ∉ elems s := fun h => hx (by simpa using (hmem x).mp h)
    have hnone := findT_none s (x, ()) (hash64 H (x, ())) hnot
    simp [memSet, hnone] at hm
  · intro hx
    have hin : (x, ()) ∈ elems s := (hmem x).mpr (by simpa using hx)
    obtain ⟨a, b, sub, heq, hwf, hmd⟩ := hg
    subst heq
    have hin2 : (x, ()) ∈ elems sub := by simpa [elems] using hin
    have hfind := findT_mem H (Meta.min_depth ⟨1⟩) sub 0 0 (x, ()) (hash64 H (x, ())) hwf hin2
      (tracks_init _ (hash64_lt H _))
    simp [memSet, findT, hfind]

/-- C2 witness: the spec's own scenario — add `7`, `1`, `8` under an
injective hash; `mem` is true exactly on `{7, 1, 8}`. -/
theorem claim_c2_witness :
    ∃ s, buildSet (fun p => p.1) [7, 1, 8] = some s ∧
      ∀ x : Nat, (memSet (fun p => p.1) s x = true ↔ x ∈ [7, 1, 8]) :=
  claim_c2 (fun p => p.1) [7, 1, 8] (by decide)

/-- C1 counterexample: `update` places the pair `(5, 7)` by the hash of the
pair (here all placement bits `0`), while `find` descends by the hash of the
key alone (here low bit `1`), so the round trip
`find(update(empty, 5, 7), 5)` returns `None` instead of `Some 7`. -/
theorem claim_c1_counterexample :
    (updateM hashPair0 (mapEmpty Nat Nat) 5 7).map (fun m2 => mapFind hashDom1 m2 5) =
      some none := by decide

/-- C1 (amended): for a built map, if the lookup hash of `k` agrees with
the placement hash of the pair `(k, v)` and `(k, v)` is hash-separated from
every other stored pair on the `MAX_LEN` placement bits, then
`find(update(m, k, v), k) = Some(v)`; and for every
other key `k2 ≠ k` not bound in `m`, `find(update(m, k, v), k2) =
find(m, k2)` unconditionally. As stated — `find` hashing only the key while
`update` places by the pair's hash — the round trip fails. -/
theorem claim_c1 {Dom Cod : Type} [DecidableEq Dom] [DecidableEq Cod]
    (HD : Dom → Nat) (HX : Dom × Cod → Nat) {m : Meta} {mp : Trie (Dom × Cod)}
    (hb : BuiltT HX m mp) (k : Dom) (v : Cod)
    (hagree : hash64 HD k = hash64 HX (k, v))
    (hdis : ∀ pa ∈ elems mp, pa ≠ (k, v) →
      hash64 HX pa % 2 ^ MAX_LEN ≠ hash64 HX (k, v) % 2 ^ MAX_LEN) :
    ∃ m2, updateM HX mp k v = some m2 ∧ mapFind HD m2 k = some v ∧
      ∀ k2 : Dom, k2 ≠ k → (∀ pa ∈ elems mp, pa.1 ≠ k2) →
        mapFind HD m2 k2 = mapFind HD mp k2 := by
  have hg := builtT_good hb
  obtain ⟨sub', heq, hwf', hsubs, hsup, hland, _⟩ := extendT_spec HX NameT.unit (k, v) hg
  have hin : (k, v) ∈ elems sub' := hland hdis
  refine ⟨_, heq, ?_, ?_⟩
  · have htr : Tracks (hash64 HX (k, v)) 0 (hash64 HD k) := by
      rw [hagree]
      exact tracks_init _ (hash64_lt HX (k, v))
    have hfind := findHash_mem HX m.min_depth sub' 0 0 k v (hash64 HD k) hwf' hin htr
    simp [mapFind, findHash, hfind]
  · intro k2 hk2 habs
    have h1 : mapFind HD mp k2 = none := findHash_none mp k2 (hash64 HD k2) habs
    have h2 : mapFind HD (Trie.Name (fork NameT.unit).1
        (.Art (.Root m (.Name (fork (fork NameT.unit).2).1 (.Art sub'))))) k2 = none := by
      refine findHash_none _ k2 (hash64 HD k2) ?_
      intro pa hpa
      have hpa2 : pa ∈ elems sub' := by simpa [elems] using hpa
      rcases hsubs pa hpa2 with h | h
      · rw [h]
        exact fun hkk => hk2 hkk.symm
      · exact habs pa h
    rw [h1, h2]

/-- C1 witness: the amended round trip on a fresh map with agreeing hashes
(the pair hashed by its key's hash). -/
theorem claim_c1_witness :
    ∃ m2, updateM (fun pa => pa.1) (mapEmpty Nat Nat) 1 9 = some m2 ∧
      mapFind (fun n => n) m2 1 = some 9 ∧
      ∀ k2 : Nat, k2 ≠ 1 → (∀ pa ∈ elems (mapEmpty Nat Nat), pa.1 ≠ k2) →
        mapFind (fun n => n) m2 k2 = mapFind (fun n => n) (mapEmpty Nat Nat) k2 :=
  claim_c1 (fun n => n) (fun pa => pa.1) (BuiltT.base ⟨1⟩) 1 9 rfl
    (by intro pa hpa; simp [mapEmpty, emptyT, elems] at hpa)

/-! ### Canonical form: the shape of a built subtree is a function of its
element set -/

/-- The canonical bare subtree at depth `d`, path value `p`, for element set
`S` (under hash `H` and configured `min_depth` `md`): `Nil` when empty, a
`Leaf` once a single element sits at depth at least `min_depth`, and a
`Bin` splitting `S` by hash bit `d` while forced below `min_depth` or while
more than one element remains. -/
inductive IsCanon {X : Type} (H : X → Nat) (md : Int) : Nat → Nat → Set X → Trie X → Prop
  | nilC (d p : Nat) : d ≤ MAX_LEN → p < 2 ^ d → IsCanon H md d p ∅ (.Nil ⟨d, p⟩)
  | leafC (d p : Nat) (x : X) : md ≤ (d : Int) → d ≤ MAX_LEN → hash64 H x % 2 ^ d = p →
    IsCanon H md d p {x} (.Leaf ⟨d, p⟩ x)
  | binC (d p : Nat) (S : Set X) (l r : Trie X) :
    d < MAX_LEN → p < 2 ^ d → S.Nonempty → ((d : Int) < md ∨ ∀ x : X, S ≠ {x}) →
    IsCanon H md (d + 1) p {y ∈ S | hash64 H y / 2 ^ d % 2 = 0} l →
    IsCanon H md (d + 1) (p + 2 ^ d) {y ∈ S | hash64 H y / 2 ^ d % 2 = 1} r →
    IsCanon H md d p S (.Bin ⟨d, p⟩ l r)

/-- Inversion: a canonical subtree for the empty set is the `Nil` node. -/
theorem isCanon_empty_inv {X : Type} {H : X → Nat} {md : Int} {d p : Nat} {S : Set X}
    {t : Trie X} (h : IsCanon H md d p S t) (hS : S = ∅) : t = .Nil ⟨d, p⟩ := by
  cases h with
  | nilC d p hd hp => rfl
  | leafC d p x hmdd hd hh => exact absurd hS (Set.singleton_ne_empty x)
  | binC d p S l r hdlt hp hne hcond hcl hcr =>
    rw [hS] at hne
    exact absurd rfl (Set.nonempty_iff_ne_empty.mp hne)

/-- Inversion: a canonical subtree for a singleton at depth at least
`min_depth` is the leaf. -/
theorem isCanon_singleton_inv {X : Type} {H : X → Nat} {md : Int} {d p : Nat} {S : Set X}
    {t : Trie X} (h : IsCanon H md d p S t) {x : X} (hS : S = {x})
    (hmdd : md ≤ (d : Int)) : t = .Leaf ⟨d, p⟩ x := by
  cases h with
  | nilC d p hd hp => exact absurd hS.symm (Set.singleton_ne_empty x)
  | leafC d p x2 hmd2 hd hh =>
    have hx : x2 = x := Set.singleton_eq_singleton_iff.mp hS
    rw [hx]
  | binC d p S l r hdlt hp hne hcond hcl hcr =>
    rcases hcond with hcond | hcond
    · exact absurd hmdd (by omega)
    · exact absurd hS (hcond x)

/-- Inversion: a canonical subtree for a nonempty set that is forced or
not a settled singleton is a `Bin` with the canonical children. -/
theorem isCanon_bin_inv {X : Type} {H : X → Nat} {md : Int} {d p : Nat} {S : Set X}
    {t : Trie X} (h : IsCanon H md d p S t) (hne : S.Nonempty)
    (hns : (d : Int) < md ∨ ∀ z : X, S ≠ {z}) :
    ∃ l r, t = .Bin ⟨d, p⟩ l r ∧
      IsCanon H md (d + 1) p {y ∈ S | hash64 H y / 2 ^ d % 2 = 0} l ∧
      IsCanon H md (d + 1) (p + 2 ^ d) {y ∈ S | hash64 H y / 2 ^ d % 2 = 1} r := by
  cases h with
  | nilC d p hd hp => exact absurd rfl (Set.nonempty_iff_ne_empty.mp hne)
  | leafC d p x hmd2 hd hh =>
    rcases hns with hns | hns
    · exact absurd hmd2 (by omega)
    · exact absurd rfl (hns x)
  | binC d p S l r hdlt hp hne2 hcond hcl hcr => exact ⟨l, r, rfl, hcl, hcr⟩

/-- The canonical form is unique: the element set determines the subtree. -/
theorem isCanon_unique {X : Type} {H : X → Nat} {md : Int} :
    ∀ {d p : Nat} {S : Set X} {t t' : Trie X},
      IsCanon H md d p S t → IsCanon H md d p S t' → t = t' := by
  intro d p S t t' h1
  induction h1 generalizing t' with
  | nilC d p hd hp =>
    intro h2
    exact (isCanon_empty_inv h2 rfl).symm
  | leafC d p x hmdd hd hh =>
    intro h2
    exact (isCanon_singleton_inv h2 rfl hmdd).symm
  | binC d p S l r hdlt hp hne hcond hcl hcr ihl ihr =>
    intro h2
    obtain ⟨l2, r2, ht', hcl2, hcr2⟩ := isCanon_bin_inv h2 hne hcond
    rw [ht', ihl hcl2, ihr hcr2]

/-- `nilForce` builds the canonical subtree of the singleton set. -/
theorem nilForce_canon {X : Type} (H : X → Nat) (md : Int) (hmd : md ≤ (MAX_LEN : Int)) :
    ∀ (n d p : Nat) (x : X), n = (md - (d : Int)).toNat → d ≤ MAX_LEN → p < 2 ^ d →
      hash64 H x % 2 ^ d = p →
      IsCanon H md d p {x} (nilForce n ⟨d, p⟩ x (hash64 H x / 2 ^ d)) := by
  intro n
  induction n with
  | zero =>
    intro d p x hn hd hp hh
    exact IsCanon.leafC d p x (by omega) hd hh
  | succ n ih =>
    intro d p x hn hd hp hh
    have hdm : (d : Int) < md := by omega
    have hdlt : d < MAX_LEN := by omega
    have hpow := pow_succ_two d
    have hmod := mod_pow_succ_eq (hash64 H x) d
    have hdiv := div_pow_succ (hash64 H x) d
    have hb : hash64 H x / 2 ^ d % 2 = 0 ∨ hash64 H x / 2 ^ d % 2 = 1 := by omega
    rcases hb with hb | hb
    · have hh1 : hash64 H x % 2 ^ (d + 1) = p := by rw [hb] at hmod; omega
      have hunf : nilForce (n + 1) (⟨d, p⟩ : BS) x (hash64 H x / 2 ^ d) =
          .Bin ⟨d, p⟩ (nilForce n ⟨d + 1, p⟩ x (hash64 H x / 2 ^ (d + 1)))
            (.Nil ⟨d + 1, p + 2 ^ d⟩) := by
        simp [nilForce, hb, hdiv]
      rw [hunf]
      have hs0 : {y ∈ ({x} : Set X) | hash64 H y / 2 ^ d % 2 = 0} = {x} := by
        ext z
        simp only [Set.mem_setOf_eq, Set.mem_sep_iff, Set.mem_singleton_iff]
        constructor
        · rintro ⟨h, _⟩; exact h
        · rintro rfl; exact ⟨rfl, hb⟩
      have hs1 : {y ∈ ({x} : Set X) | hash64 H y / 2 ^ d % 2 = 1} = ∅ := by
        ext z
        simp only [Set.mem_setOf_eq, Set.mem_sep_iff, Set.mem_singleton_iff, Set.mem_empty_iff_false,
          iff_false, not_and]
        rintro rfl
        omega
      refine IsCanon.binC d p {x} _ _ hdlt hp ⟨x, rfl⟩ (Or.inl hdm) ?_ ?_
      · rw [hs0]
        exact ih (d + 1) p x (by omega) (by omega) (by omega) hh1
      · rw [hs1]
        exact IsCanon.nilC (d + 1) (p + 2 ^ d) (by omega) (by omega)
    · have hh1 : hash64 H x % 2 ^ (d + 1) = p + 2 ^ d := by rw [hb] at hmod; omega
      have hunf : nilForce (n + 1) (⟨d, p⟩ : BS) x (hash64 H x / 2 ^ d) =
          .Bin ⟨d, p⟩ (.Nil ⟨d + 1, p⟩)
            (nilForce n ⟨d + 1, p + 2 ^ d⟩ x (hash64 H x / 2 ^ (d + 1))) := by
        simp [nilForce, hb, hdiv]
      rw [hunf]
      have hs0 : {y ∈ ({x} : Set X) | hash64 H y / 2 ^ d % 2 = 0} = ∅ := by
        ext z
        simp only [Set.mem_setOf_eq, Set.mem_sep_iff, Set.mem_singleton_iff, Set.mem_empty_iff_false,
          iff_false, not_and]
        rintro rfl
        omega
      have hs1 : {y ∈ ({x} : Set X) | hash64 H y / 2 ^ d % 2 = 1} = {x} := by
        ext z
        simp only [Set.mem_setOf_eq, Set.mem_sep_iff, Set.mem_singleton_iff]
        constructor
        · rintro ⟨h, _⟩; exact h
        · rintro rfl; exact ⟨rfl, hb⟩
      refine IsCanon.binC d p {x} _ _ hdlt hp ⟨x, rfl⟩ (Or.inl hdm) ?_ ?_
      · rw [hs0]
        exact IsCanon.nilC (d + 1) p (by omega) (by omega)
      · rw [hs1]
        exact ih (d + 1) (p + 2 ^ d) x (by omega) (by omega) (by omega) hh1

/-- A two-element set is not a singleton. -/
theorem insert_ne_singleton {X : Type} {e x : X} (he : e ≠ x) :
    ∀ z : X, (insert x {e} : Set X) ≠ {z} := by
  intro z hz
  have hxz : x = z := by
    rw [← Set.mem_singleton_iff, ← hz]
    exact Set.mem_insert x {e}
  have hez : e = z := by
    rw [← Set.mem_singleton_iff, ← hz]
    exact Set.mem_insert_of_mem x rfl
  exact he (by rw [hez, hxz])

/-- `leafIns` builds the canonical subtree of the two-element (or, when the
elements coincide, singleton) set. -/
theorem leafIns_canon {X : Type} [DecidableEq X] (H : X → Nat) (meta : Meta)
    (hmd : meta.min_depth ≤ (MAX_LEN : Int)) :
    ∀ (n d p : Nat) (e x : X), n = MAX_LEN - d → d ≤ MAX_LEN → meta.min_depth ≤ (d : Int) →
      hash64 H e % 2 ^ d = p → hash64 H x % 2 ^ d = p →
      (e ≠ x → hash64 H e % 2 ^ MAX_LEN ≠ hash64 H x % 2 ^ MAX_LEN) →
      IsCanon H meta.min_depth d p (insert x {e})
        (leafIns H meta n ⟨d, p⟩ e x (hash64 H x / 2 ^ d)) := by
  intro n
  induction n with
  | zero =>
    intro d p e x hn hd hmdd hhe hhx hdis
    by_cases he : e = x
    · subst he
      have hins : (insert e ({e} : Set X)) = {e} := Set.insert_eq_self.mpr rfl
      rw [hins]
      exact IsCanon.leafC d p e hmdd hd hhe
    · have hd30 : d = MAX_LEN := by omega
      exact absurd (by rw [← hd30, hhe, hhx]) (hdis he)
  | succ n ih =>
    intro d p e x hn hd hmdd hhe hhx hdis
    have hdlt : d < MAX_LEN := by omega
    have hp : p < 2 ^ d := by
      rw [← hhe]; exact Nat.mod_lt _ (Nat.pos_pow_of_pos d (by norm_num))
    by_cases he : e = x
    · subst he
      have hins : (insert e ({e} : Set X)) = {e} := Set.insert_eq_self.mpr rfl
      rw [hins]
      have hunf : leafIns H meta (n + 1) (⟨d, p⟩ : BS) e e (hash64 H e / 2 ^ d) =
          .Leaf ⟨d, p⟩ e := by simp [leafIns]
      rw [hunf]
      exact IsCanon.leafC d p e hmdd hd hhe
    · have hpow := pow_succ_two d
      have hmodx := mod_pow_succ_eq (hash64 H x) d
      have hmode := mod_pow_succ_eq (hash64 H e) d
      have hdivx := div_pow_succ (hash64 H x) d
      have hn1 : n = MAX_LEN - (d + 1) := by omega
      have hbe : hash64 H e / 2 ^ d % 2 = 0 ∨ hash64 H e / 2 ^ d % 2 = 1 := by omega
      have hbx : hash64 H x / 2 ^ d % 2 = 0 ∨ hash64 H x / 2 ^ d % 2 = 1 := by omega
      have hnsing := insert_ne_singleton he
      have hiff := suffix_spec (hash64 H e) d
      rw [hhe] at hiff
      simp only [BS.prepend, one_mul] at hiff
      rcases hbe with hbe | hbe
      · have hst : suffix (⟨d + 1, p + 2 ^ d⟩ : BS) (hash64 H e) = false := by
          rcases Bool.eq_false_or_eq_true
              (suffix (⟨d + 1, p + 2 ^ d⟩ : BS) (hash64 H e)) with h0 | h0
          · exact absurd (hiff.mp h0) (by omega)
          · exact h0
        have hhe1 : hash64 H e % 2 ^ (d + 1) = p := by rw [hbe] at hmode; omega
        rcases hbx with hbx | hbx
        · have hhx1 : hash64 H x % 2 ^ (d + 1) = p := by rw [hbx] at hmodx; omega
          have hunf : leafIns H meta (n + 1) (⟨d, p⟩ : BS) e x (hash64 H x / 2 ^ d) =
              .Bin ⟨d, p⟩ (leafIns H meta n ⟨d + 1, p⟩ e x (hash64 H x / 2 ^ (d + 1)))
                (.Nil ⟨d + 1, p + 2 ^ d⟩) := by
            simp [leafIns, he, hst, hbx, hdivx]
          rw [hunf]
          have hs0 : {y ∈ (insert x {e} : Set X) | hash64 H y / 2 ^ d % 2 = 0} =
              insert x {e} := by
            ext z
            simp only [Set.mem_setOf_eq, Set.mem_sep_iff, Set.mem_insert_iff, Set.mem_singleton_iff]
            constructor
            · rintro ⟨h, _⟩; exact h
            · rintro (rfl | rfl)
              · exact ⟨Or.inl rfl, hbx⟩
              · exact ⟨Or.inr rfl, hbe⟩
          have hs1 : {y ∈ (insert x {e} : Set X) | hash64 H y / 2 ^ d % 2 = 1} = ∅ := by
            ext z
            simp only [Set.mem_setOf_eq, Set.mem_sep_iff, Set.mem_insert_iff, Set.mem_singleton_iff,
              Set.mem_empty_iff_false, iff_false, not_and]
            rintro (rfl | rfl) <;> omega
          refine IsCanon.binC d p (insert x {e}) _ _ hdlt hp (Set.insert_nonempty x {e})
            (Or.inr hnsing) ?_ ?_
          · rw [hs0]
            exact ih (d + 1) p e x hn1 (by omega) (by omega) hhe1 hhx1 hdis
          · rw [hs1]
            exact IsCanon.nilC (d + 1) (p + 2 ^ d) (by omega) (by omega)
        · have hhx1 : hash64 H x % 2 ^ (d + 1) = p + 2 ^ d := by rw [hbx] at hmodx; omega
          have hunf : leafIns H meta (n + 1) (⟨d, p⟩ : BS) e x (hash64 H x / 2 ^ d) =
              .Bin ⟨d, p⟩ (.Leaf ⟨d + 1, p⟩ e)
                (nilForce ((meta.min_depth - ((d : Int) + 1)).toNat) ⟨d + 1, p + 2 ^ d⟩ x
                  (hash64 H x / 2 ^ (d + 1))) := by
            simp [leafIns, he, hst, hbx, hdivx, BS.prepend]
          rw [hunf]
          have hs0 : {y ∈ (insert x {e} : Set X) | hash64 H y / 2 ^ d % 2 = 0} = {e} := by
            ext z
            simp only [Set.mem_setOf_eq, Set.mem_sep_iff, Set.mem_insert_iff, Set.mem_singleton_iff]
            constructor
            · rintro ⟨rfl | rfl, hz⟩
              · omega
              · rfl
            · rintro rfl; exact ⟨Or.inr rfl, hbe⟩
          have hs1 : {y ∈ (insert x {e} : Set X) | hash64 H y / 2 ^ d % 2 = 1} = {x} := by
            ext z
            simp only [Set.mem_setOf_eq, Set.mem_sep_iff, Set.mem_insert_iff, Set.mem_singleton_iff]
            constructor
            · rintro ⟨rfl | rfl, hz⟩
              · rfl
              · omega
            · rintro rfl; exact ⟨Or.inl rfl, hbx⟩
          refine IsCanon.binC d p (insert x {e}) _ _ hdlt hp (Set.insert_nonempty x {e})
            (Or.inr hnsing) ?_ ?_
          · rw [hs0]
            exact IsCanon.leafC (d + 1) p e (by omega) (by omega) hhe1
          · rw [hs1]
            exact nilForce_canon H meta.min_depth hmd _ (d + 1) (p + 2 ^ d) x (by omega)
              (by omega) (by omega) hhx1
      · have hst : suffix (⟨d + 1, p + 2 ^ d⟩ : BS) (hash64 H e) = true := hiff.mpr hbe
        have hhe1 : hash64 H e % 2 ^ (d + 1) = p + 2 ^ d := by rw [hbe] at hmode; omega
        rcases hbx with hbx | hbx
        · have hhx1 : hash64 H x % 2 ^ (d + 1) = p := by rw [hbx] at hmodx; omega
          have hunf : leafIns H meta (n + 1) (⟨d, p⟩ : BS) e x (hash64 H x / 2 ^ d) =
              .Bin ⟨d, p⟩
                (nilForce ((meta.min_depth - ((d : Int) + 1)).toNat) ⟨d + 1, p⟩ x
                  (hash64 H x / 2 ^ (d + 1)))
                (.Leaf ⟨d + 1, p + 2 ^ d⟩ e) := by
            simp [leafIns, he, hst, hbx, hdivx, BS.prepend]
          rw [hunf]
          have hs0 : {y ∈ (insert x {e} : Set X) | hash64 H y / 2 ^ d % 2 = 0} = {x} := by
            ext z
            simp only [Set.mem_setOf_eq, Set.mem_sep_iff, Set.mem_insert_iff, Set.mem_singleton_iff]
            constructor
            · rintro ⟨rfl | rfl, hz⟩
              · rfl
              · omega
            · rintro rfl; exact ⟨Or.inl rfl, hbx⟩
          have hs1 : {y ∈ (insert x {e} : Set X) | hash64 H y / 2 ^ d % 2 = 1} = {e} := by
            ext z
            simp only [Set.mem_setOf_eq, Set.mem_sep_iff, Set.mem_insert_iff, Set.mem_singleton_iff]
            constructor
            · rintro ⟨rfl | rfl, hz⟩
              · omega
              · rfl
            · rintro rfl; exact ⟨Or.inr rfl, hbe⟩
          refine IsCanon.binC d p (insert x {e}) _ _ hdlt hp (Set.insert_nonempty x {e})
            (Or.inr hnsing) ?_ ?_
          · rw [hs0]
            exact nilForce_canon H meta.min_depth hmd _ (d + 1) p x (by omega) (by omega)
              (by omega) hhx1
          · rw [hs1]
            exact IsCanon.leafC (d + 1) (p + 2 ^ d) e (by omega) (by omega) hhe1
        · have hhx1 : hash64 H x % 2 ^ (d + 1) = p + 2 ^ d := by rw [hbx] at hmodx; omega
          have hunf : leafIns H meta (n + 1) (⟨d, p⟩ : BS) e x (hash64 H x / 2 ^ d) =
              .Bin ⟨d, p⟩ (.Nil ⟨d + 1, p⟩)
                (leafIns H meta n ⟨d + 1, p + 2 ^ d⟩ e x (hash64 H x / 2 ^ (d + 1))) := by
            simp [leafIns, he, hst, hbx, hdivx]
          rw [hunf]
          have hs0 : {y ∈ (insert x {e} : Set X) | hash64 H y / 2 ^ d % 2 = 0} = ∅ := by
            ext z
            simp only [Set.mem_setOf_eq, Set.mem_sep_iff, Set.mem_insert_iff, Set.mem_singleton_iff,
              Set.mem_empty_iff_false, iff_false, not_and]
            rintro (rfl | rfl) <;> omega
          have hs1 : {y ∈ (insert x {e} : Set X) | hash64 H y / 2 ^ d % 2 = 1} =
              insert x {e} := by
            ext z
            simp only [Set.mem_setOf_eq, Set.mem_sep_iff, Set.mem_insert_iff, Set.mem_singleton_iff]
            constructor
            · rintro ⟨h, _⟩; exact h
            · rintro (rfl | rfl)
              · exact ⟨Or.inl rfl, hbx⟩
              · exact ⟨Or.inr rfl, hbe⟩
          refine IsCanon.binC d p (insert x {e}) _ _ hdlt hp (Set.insert_nonempty x {e})
            (Or.inr hnsing) ?_ ?_
          · rw [hs0]
            exact IsCanon.nilC (d + 1) p (by omega) (by omega)
          · rw [hs1]
            exact ih (d + 1) (p + 2 ^ d) e x hn1 (by omega) (by omega) hhe1 hhx1 hdis

/-- Master canonicity lemma for `mfn`: placing an element into a canonical
subtree yields the canonical subtree of the enlarged set, provided the new
element's hash is consistent with the position and separated (on the
`MAX_LEN` placement bits) from every distinct existing element. -/
theorem mfn_canon {X : Type} [DecidableEq X] (H : X → Nat) (nm : NameT) (meta : Meta)
    (hmd : meta.min_depth ≤ (MAX_LEN : Int)) :
    ∀ {d p : Nat} {S : Set X} {t : Trie X}, IsCanon H meta.min_depth d p S t →
      ∀ x : X, hash64 H x % 2 ^ d = p →
      (∀ y ∈ S, y ≠ x → hash64 H y % 2 ^ MAX_LEN ≠ hash64 H x % 2 ^ MAX_LEN) →
      ∃ t', mfn H nm meta t ⟨d, p⟩ x (hash64 H x / 2 ^ d) = some t' ∧
        IsCanon H meta.min_depth d p (insert x S) t' := by
  intro d p S t hc
  induction hc with
  | nilC d p hd hp =>
    intro x hh hdis
    refine ⟨_, rfl, ?_⟩
    have hins : (insert x (∅ : Set X)) = {x} := by ext z; simp
    rw [hins]
    exact nilForce_canon H meta.min_depth hmd _ d p x rfl hd hp hh
  | leafC d p e hmdd hd hhe =>
    intro x hh hdis
    refine ⟨_, rfl, ?_⟩
    exact leafIns_canon H meta hmd (MAX_LEN - d) d p e x rfl hd hmdd hhe hh
      (fun hne => hdis e rfl hne)
  | binC d p S l r hdlt hp hne hcond hcl hcr ihl ihr =>
    intro x hh hdis
    have hpow := pow_succ_two d
    have hmodx := mod_pow_succ_eq (hash64 H x) d
    have hdivx := div_pow_succ (hash64 H x) d
    have hcond2 : (d : Int) < meta.min_depth ∨ ∀ z : X, (insert x S : Set X) ≠ {z} := by
      rcases hcond with h | h
      · exact Or.inl h
      · right
        intro z hz
        obtain ⟨s0, hs0⟩ := hne
        refine h z ?_
        apply Set.eq_singleton_iff_unique_mem.mpr
        have hs0z : s0 = z := by
          rw [← Set.mem_singleton_iff, ← hz]
          exact Set.mem_insert_of_mem x hs0
        constructor
        · rw [← hs0z]; exact hs0
        · intro w hw
          rw [← Set.mem_singleton_iff, ← hz]
          exact Set.mem_insert_of_mem x hw
    rcases (by omega : hash64 H x / 2 ^ d % 2 = 0 ∨ hash64 H x / 2 ^ d % 2 = 1)
      with hbx | hbx
    · have hhx1 : hash64 H x % 2 ^ (d + 1) = p := by rw [hbx] at hmodx; omega
      obtain ⟨l', hl1, hl2⟩ := ihl x hhx1 (fun y hy hne2 => hdis y hy.1 hne2)
      refine ⟨.Bin ⟨d, p⟩ l' r, by simp [mfn, hbx, hdivx, hl1], ?_⟩
      have hs0 : {y ∈ (insert x S : Set X) | hash64 H y / 2 ^ d % 2 = 0} =
          insert x {y ∈ S | hash64 H y / 2 ^ d % 2 = 0} := by
        ext z
        simp only [Set.mem_setOf_eq, Set.mem_sep_iff, Set.mem_insert_iff]
        constructor
        · rintro ⟨rfl | hz, hbz⟩
          · exact Or.inl rfl
          · exact Or.inr ⟨hz, hbz⟩
        · rintro (rfl | ⟨hz, hbz⟩)
          · exact ⟨Or.inl rfl, hbx⟩
          · exact ⟨Or.inr hz, hbz⟩
      have hs1 : {y ∈ (insert x S : Set X) | hash64 H y / 2 ^ d % 2 = 1} =
          {y ∈ S | hash64 H y / 2 ^ d % 2 = 1} := by
        ext z
        simp only [Set.mem_setOf_eq, Set.mem_sep_iff, Set.mem_insert_iff]
        constructor
        · rintro ⟨rfl | hz, hbz⟩
          · omega
          · exact ⟨hz, hbz⟩
        · rintro ⟨hz, hbz⟩
          exact ⟨Or.inr hz, hbz⟩
      refine IsCanon.binC d p (insert x S) l' r hdlt hp (Set.insert_nonempty x S) hcond2 ?_ ?_
      · rw [hs0]; exact hl2
      · rw [hs1]; exact hcr
    · have hhx1 : hash64 H x % 2 ^ (d + 1) = p + 2 ^ d := by rw [hbx] at hmodx; omega
      obtain ⟨r', hr1, hr2⟩ := ihr x hhx1 (fun y hy hne2 => hdis y hy.1 hne2)
      refine ⟨.Bin ⟨d, p⟩ l r', by simp [mfn, hbx, hdivx, hr1], ?_⟩
      have hs0 : {y ∈ (insert x S : Set X) | hash64 H y / 2 ^ d % 2 = 0} =
          {y ∈ S | hash64 H y / 2 ^ d % 2 = 0} := by
        ext z
        simp only [Set.mem_setOf_eq, Set.mem_sep_iff, Set.mem_insert_iff]
        constructor
        · rintro ⟨rfl | hz, hbz⟩
          · omega
          · exact ⟨hz, hbz⟩
        · rintro ⟨hz, hbz⟩
          exact ⟨Or.inr hz, hbz⟩
      have hs1 : {y ∈ (insert x S : Set X) | hash64 H y / 2 ^ d % 2 = 1} =
          insert x {y ∈ S | hash64 H y / 2 ^ d % 2 = 1} := by
        ext z
        simp only [Set.mem_setOf_eq, Set.mem_sep_iff, Set.mem_insert_iff]
        constructor
        · rintro ⟨rfl | hz, hbz⟩
          · exact Or.inl rfl
          · exact Or.inr ⟨hz, hbz⟩
        · rintro (rfl | ⟨hz, hbz⟩)
          · exact ⟨Or.inl rfl, hbx⟩
          · exact ⟨Or.inr hz, hbz⟩
      refine IsCanon.binC d p (insert x S) l r' hdlt hp (Set.insert_nonempty x S) hcond2 ?_ ?_
      · rw [hs0]; exact hcl
      · rw [hs1]; exact hr2

/-- `extend` on a canonically-wrapped canonical subtree: the result is the
unit-name rewrapping of the canonical subtree of the enlarged set. -/
theorem extendT_canon {X : Type} [DecidableEq X] (H : X → Nat) (nm : NameT) (x : X)
    {m : Meta} {a b : NameT} {sub : Trie X} {S : Set X}
    (hmd : m.min_depth ≤ (MAX_LEN : Int))
    (hc : IsCanon H m.min_depth 0 0 S sub)
    (hdis : ∀ y ∈ S, y ≠ x → hash64 H y % 2 ^ MAX_LEN ≠ hash64 H x % 2 ^ MAX_LEN) :
    ∃ sub', extendT H nm (.Name a (.Art (.Root m (.Name b (.Art sub))))) x =
        some (.Name (fork nm).1 (.Art (.Root m (.Name (fork (fork nm).2).1 (.Art sub'))))) ∧
      IsCanon H m.min_depth 0 0 (insert x S) sub' := by
  obtain ⟨sub', h1, h2⟩ := mfn_canon H (fork (fork nm).2).2 m hmd hc x
    (by rw [pow_zero]; exact Nat.mod_one _) hdis
  rw [pow_zero, Nat.div_one] at h1
  refine ⟨sub', ?_, h2⟩
  simp only [extendT, root_mfn, mfn, h1, Option.map_some']

/-- Folding a list of set insertions over a canonically-wrapped canonical
subtree yields the canonical subtree of the union, wrapped (for a non-empty
insertion list) in the fixed unit-forked names of the last `add`. -/
theorem buildSet_canon {α : Type} [DecidableEq α] (H : α × Unit → Nat) :
    ∀ (xs : List α) (m : Meta) (a b : NameT) (sub : Trie (α × Unit)) (acc : List α),
      m.min_depth ≤ (MAX_LEN : Int) →
      IsCanon H m.min_depth 0 0 {y : α × Unit | y.1 ∈ acc} sub →
      (∀ p2 ∈ acc ++ xs, ∀ q ∈ acc ++ xs, p2 ≠ q →
        hash64 H (p2, ()) % 2 ^ MAX_LEN ≠ hash64 H (q, ()) % 2 ^ MAX_LEN) →
      ∃ a2 b2 sub', List.foldlM (fun s x => setAdd H s x)
          (.Name a (.Art (.Root m (.Name b (.Art sub))))) xs =
          some (.Name a2 (.Art (.Root m (.Name b2 (.Art sub'))))) ∧
        IsCanon H m.min_depth 0 0 {y : α × Unit | y.1 ∈ acc ++ xs} sub' ∧
        (xs = [] → a2 = a ∧ b2 = b ∧ sub' = sub) ∧
        (xs ≠ [] → a2 = (fork NameT.unit).1 ∧ b2 = (fork (fork NameT.unit).2).1) := by
  intro xs
  induction xs with
  | nil =>
    intro m a b sub acc hmd hc hdis
    exact ⟨a, b, sub, rfl, by simpa using hc, fun _ => ⟨rfl, rfl, rfl⟩,
      fun h => absurd rfl h⟩
  | cons x xs ih =>
    intro m a b sub acc hmd hc hdis
    have hdis1 : ∀ y ∈ {y : α × Unit | y.1 ∈ acc}, y ≠ (x, ()) →
        hash64 H y % 2 ^ MAX_LEN ≠ hash64 H (x, ()) % 2 ^ MAX_LEN := by
      rintro ⟨ya, yu⟩ hy hne
      cases yu
      have hya : ya ∈ acc := hy
      have hyx : ya ≠ x := fun h => hne (by rw [h])
      exact hdis ya (by simp [hya]) x (by simp) hyx
    obtain ⟨sub1, h1, h2⟩ := extendT_canon H NameT.unit (x, ()) hmd hc hdis1
    have hset : (insert (x, ()) {y : α × Unit | y.1 ∈ acc}) =
        {y : α × Unit | y.1 ∈ x :: acc} := by
      ext z
      obtain ⟨za, zu⟩ := z
      cases zu
      simp [Prod.ext_iff]
    rw [hset] at h2
    have hdis2 : ∀ p2 ∈ (x :: acc) ++ xs, ∀ q ∈ (x :: acc) ++ xs, p2 ≠ q →
        hash64 H (p2, ()) % 2 ^ MAX_LEN ≠ hash64 H (q, ()) % 2 ^ MAX_LEN := by
      intro p2 hp q hq hne
      refine hdis p2 ?_ q ?_ hne
      · simp at hp ⊢; tauto
      · simp at hq ⊢; tauto
    obtain ⟨a2, b2, sub', h3, h4, h5, h6⟩ :=
      ih m (fork NameT.unit).1 (fork (fork NameT.unit).2).1 sub1 (x :: acc) hmd h2 hdis2
    refine ⟨a2, b2, sub', ?_, ?_, ?_, ?_⟩
    · rw [List.foldlM_cons]
      have hadd : setAdd H (.Name a (.Art (.Root m (.Name b (.Art sub))))) x =
          some (.Name (fork NameT.unit).1
            (.Art (.Root m (.Name (fork (fork NameT.unit).2).1 (.Art sub1))))) := h1
      rw [hadd]
      simpa using h3
    · have hseq : {y : α × Unit | y.1 ∈ (x :: acc) ++ xs} =
          {y : α × Unit | y.1 ∈ acc ++ x :: xs} := by
        ext z
        simp
        tauto
      rw [← hseq]
      exact h4
    · intro h
      simp at h
    · intro _
      by_cases hxs : xs = []
      · subst hxs
        obtain ⟨ha, hb, _⟩ := h5 rfl
        exact ⟨ha, hb⟩
      · exact h6 hxs

/-- C3 counterexample: a trie and its `Name`-wrapping hold the same
elements but are structurally unequal — the derived equality is not
insensitive to where `Name`/`Art` wrappers occur. -/
theorem claim_c3_counterexample :
    elems (Trie.Name NameT.unit (setEmpty Nat)) = elems (setEmpty Nat) ∧
      Trie.Name NameT.unit (setEmpty Nat) ≠ setEmpty Nat := by
  constructor
  · rfl
  · decide

/-- C3 (amended): insertion order does not matter — for any two
permutations of a list of elements whose distinct members are pairwise
hash-separated on the `MAX_LEN` placement bits, building a set by
successive `add`s yields structurally equal tries (the subtree is the
canonical form of the element set, and the wrapper names of the last `add`
are the fixed unit-forked names).  The claimed "equal iff same elements"
fails in the other direction: structural equality distinguishes `Name`/
`Art` wrappers (see the counterexample). -/
theorem claim_c3 {α : Type} [DecidableEq α] (H : α × Unit → Nat) (xs ys : List α)
    (hperm : xs.Perm ys)
    (hdis : ∀ p2 ∈ xs, ∀ q ∈ xs, p2 ≠ q →
      hash64 H (p2, ()) % 2 ^ MAX_LEN ≠ hash64 H (q, ()) % 2 ^ MAX_LEN) :
    buildSet H xs = buildSet H ys := by
  have hmemxy : ∀ a : α, (a ∈ xs ↔ a ∈ ys) := fun a => hperm.mem_iff
  rcases eq_or_ne xs [] with rfl | hne
  · have hys : ys = [] := List.Perm.eq_nil hperm.symm
    rw [hys]
  · have hyne : ys ≠ [] := by
      intro h
      rw [h] at hperm
      exact hne (List.Perm.eq_nil hperm)
    have hc0 : IsCanon H (Meta.min_depth ⟨1⟩) 0 0 {y : α × Unit | y.1 ∈ ([] : List α)}
        (.Nil ⟨0, 0⟩) := by
      have hset : {y : α × Unit | y.1 ∈ ([] : List α)} = ∅ := by ext z; simp
      rw [hset]
      exact IsCanon.nilC 0 0 (by omega) (by norm_num)
    have hdisy : ∀ p2 ∈ ([] : List α) ++ ys, ∀ q ∈ ([] : List α) ++ ys, p2 ≠ q →
        hash64 H (p2, ()) % 2 ^ MAX_LEN ≠ hash64 H (q, ()) % 2 ^ MAX_LEN := by
      intro p2 hp q hq hne2
      exact hdis p2 ((hmemxy p2).mpr (by simpa using hp)) q ((hmemxy q).mpr (by simpa using hq))
        hne2
    obtain ⟨a1, b1, s1, hf1, hc1, _, hn1⟩ := buildSet_canon H xs ⟨1⟩
      (fork (NameT.ofStr "trie_empty")).1 (fork (NameT.ofStr "trie_empty")).2 (.Nil ⟨0, 0⟩) []
      (by norm_num [MAX_LEN]) hc0 (by simpa using hdis)
    obtain ⟨a2, b2, s2, hf2, hc2, _, hn2⟩ := buildSet_canon H ys ⟨1⟩
      (fork (NameT.ofStr "trie_empty")).1 (fork (NameT.ofStr "trie_empty")).2 (.Nil ⟨0, 0⟩) []
      (by norm_num [MAX_LEN]) hc0 hdisy
    have hseq : {y : α × Unit | y.1 ∈ ([] : List α) ++ xs} =
        {y : α × Unit | y.1 ∈ ([] : List α) ++ ys} := by
      ext z
      simpa using hmemxy z.1
    rw [hseq] at hc1
    have hsub : s1 = s2 := isCanon_unique hc1 hc2
    obtain ⟨ha1, hb1⟩ := hn1 hne
    obtain ⟨ha2, hb2⟩ := hn2 hyne
    have hstart : setEmpty α = Trie.Name (fork (NameT.ofStr "trie_empty")).1
        (.Art (.Root ⟨1⟩ (.Name (fork (NameT.ofStr "trie_empty")).2 (.Art (.Nil ⟨0, 0⟩))))) := by
      rfl
    show List.foldlM (fun s x => setAdd H s x) (setEmpty α) xs =
      List.foldlM (fun s x => setAdd H s x) (setEmpty α) ys
    rw [hstart, hf1, hf2, hsub, ha1, hb1, ha2, hb2]

/-- C3 witness: the spec's example — inserting `7, 1, 8` and `8, 7, 1`
yields structurally equal tries. -/
theorem claim_c3_witness :
    buildSet (fun p => p.1) [7, 1, 8] = buildSet (fun p => p.1) [8, 7, 1] :=
  claim_c3 (fun p => p.1) [7, 1, 8] [8, 7, 1] (by decide) (by decide)
end AdaptonTrie
